import Mathlib

/-!
Shallow embedding of the grouped-aggregation library (`aggregate_numpy.py` and the
C kernels of `aggregate_weave.py`).

Modelling conventions:
* Machine floating-point values are modelled by `Val`: an exact rational, or NaN.
  Arithmetic on `Val` follows IEEE NaN propagation (any operation touching NaN
  yields NaN; comparisons against NaN are false); rounding is not modelled, so
  rational arithmetic stands for exact float arithmetic.
* numpy arrays are lists.  `np.bincount`, scatter assignment (`ret[idx] = a`),
  `ufunc.at`, `np.compress` are modelled by folds over the index/value pairs,
  in the same left-to-right order as numpy performs them.
* The value dtype is fixed to float64, which is the only dtype of the value
  model; hence `np.finfo(a.dtype).max/min` are the float64 bounds `FMAX`/`FMIN`.
* `np.sqrt` leaves the rationals, so the square root is a parameter `sqrtFn`
  threaded through the definitions; every theorem holds for an arbitrary
  `sqrtFn`, which is sound because both implementations apply it to the same
  argument.
* Python exceptions are modelled by `Except AggError`.
-/

namespace NPG

/-- A floating-point value of the model: an exact rational or NaN. -/
inductive Val where
  | nan : Val
  | num : ℚ → Val
deriving DecidableEq, Repr

def Val.isNan : Val → Bool
  | .nan => true
  | .num _ => false

/-- Addition with IEEE NaN propagation. -/
def Val.add : Val → Val → Val
  | .num a, .num b => .num (a + b)
  | _, _ => .nan

/-- Subtraction with IEEE NaN propagation. -/
def Val.sub : Val → Val → Val
  | .num a, .num b => .num (a - b)
  | _, _ => .nan

/-- Multiplication with IEEE NaN propagation (`0 * nan = nan`, as in numpy). -/
def Val.mul : Val → Val → Val
  | .num a, .num b => .num (a * b)
  | _, _ => .nan

/-- Division by a count (numpy `x / counts` with integer counts); `0/0` and
`nan/c` give NaN, matching numpy under `errstate(divide=ignore)`.  A nonzero
numerator never meets a zero count in the code (a group's sum is 0 when its
count is 0), so the infinity case does not arise and is mapped to NaN. -/
def Val.divNat : Val → ℕ → Val
  | .nan, _ => .nan
  | .num a, c => if c = 0 then .nan else .num (a / (c : ℚ))

/-- Model of `np.minimum` (propagates NaN). -/
def Val.vmin : Val → Val → Val
  | .num a, .num b => .num (min a b)
  | _, _ => .nan

/-- Model of `np.maximum` (propagates NaN). -/
def Val.vmax : Val → Val → Val
  | .num a, .num b => .num (max a b)
  | _, _ => .nan

/-- Python/numpy truthiness of a value: nonzero is true, and NaN is true. -/
def truthy (v : Val) : Bool := v ≠ Val.num 0

def boolToVal (b : Bool) : Val := if b then .num 1 else .num 0

/-- Model of `np.finfo(np.float64).max`, the sentinel used by `_min`. -/
def FMAX : ℚ := (2 ^ 53 - 1) * 2 ^ 971

/-- Model of `np.finfo(np.float64).min`, the sentinel used by `_max`. -/
def FMIN : ℚ := -((2 ^ 53 - 1) * 2 ^ 971)

/-- Errors raised by `aggregate` (Python `ValueError`/`TypeError` variants,
named after the spec taxonomy). -/
inductive AggError where
  | shapeMismatch
  | invalidIndex
  | outOfBounds
  | invalidCoord
  | noNanVersion
  | scalarInput
  | fillValueError
  | emptyInput
deriving DecidableEq, Repr

/-- The reduction kinds embedded from `_impl_dict` (the variable-length kinds
`sort`, `rsort`, `array` and the generic callable are outside the model). -/
inductive FuncKind where
  | sum | prod | min | max | mean | var | std | first | last
  | all | any | allnan | anynan
deriving DecidableEq, Repr

/-- A resolved function request: canonical kind plus the nan-variant flag
(the outcome of the string parsing `func.lower().startswith('nan')`). -/
structure FuncSpec where
  kind : FuncKind
  nanVariant : Bool
deriving DecidableEq, Repr

/-- Modelled from the spec: `no_separate_nan_version` is imported from `.utils`,
which is absent from the source tree.  Per spec section 4.2 the kinds with no
nan- variant are first, last, all, any, allnan, anynan (and the unmodelled
array/sort/rsort). -/
def noSepNan : List FuncKind :=
  [.first, .last, .all, .any, .allnan, .anynan]

/-- Output element types that the claims inspect. -/
inductive DType where
  | bool | int | float
deriving DecidableEq, Repr

/-- The output dtype fixed by the source itself: `_mean`/`_var`/`_std` use
`float if dtype is None else dtype`; `_all`/`_any`/`_allnan`/`_anynan` hard-code
`dtype=bool` ignoring the request.  For the remaining kinds the dtype comes from
`minimum_dtype` in the absent `.utils` module and is left unmodelled (`none`). -/
def outDType (k : FuncKind) (dtype : Option DType) : Option DType :=
  match k with
  | .mean | .var | .std => some (dtype.getD .float)
  | .all | .any | .allnan | .anynan => some .bool
  | _ => none

/-- The `values` argument: a scalar (0-d) or a flat array. -/
inductive VInput where
  | scalar : Val → VInput
  | arr : List Val → VInput
deriving DecidableEq, Repr

/-- The `group_idx` argument as an ndarray: a shape and the row-major flat data. -/
structure NDInt where
  shape : List ℕ
  data : List ℤ
deriving DecidableEq, Repr

/-- The `size` argument: a scalar, or one entry per key dimension. -/
inductive SizeArg where
  | scalar : ℕ → SizeArg
  | seq : List ℕ → SizeArg
deriving DecidableEq, Repr

inductive Order where
  | C | F
deriving DecidableEq, Repr

/-- The result: flat values, the declared shape, and the output dtype where the
source determines it. -/
structure Result where
  vals : List Val
  shape : List ℕ
  dtype : Option DType
deriving DecidableEq, Repr

/-! ### Bulk array operations -/

/-- Scatter assignment `ret[idx] = a` (pairs applied left to right, so later
writes to the same slot overwrite earlier ones, as in numpy). -/
def scatter {α : Type} (ret : List α) (idx : List ℕ) (a : List α) : List α :=
  (idx.zip a).foldl (fun r p => r.set p.1 p.2) ret

/-- Scatter assignment with a broadcast right-hand side `ret[idx] = v`. -/
def scatterConst {α : Type} (ret : List α) (idx : List ℕ) (v : α) : List α :=
  idx.foldl (fun r g => r.set g v) ret

/-- Model of `ufunc.at(ret, idx, a)`: unbuffered in-place combine per pair. -/
def ufuncAt (op : Val → Val → Val) (ret : List Val) (idx : List ℕ) (a : List Val) : List Val :=
  (idx.zip a).foldl (fun r p => r.set p.1 (op (r.getD p.1 .nan) p.2)) ret

/-- Model of `ufunc.at(ret, idx, v)` with a broadcast scalar operand. -/
def ufuncAtScalar (op : Val → Val → Val) (ret : List Val) (idx : List ℕ) (v : Val) : List Val :=
  idx.foldl (fun r g => r.set g (op (r.getD g .nan) v)) ret

/-- Model of `np.bincount(idx, minlength=n)`.  At every call site the indices
are below `n` (validated or inferred as `max+1`), so the result length is `n`. -/
def bincount (idx : List ℕ) (n : ℕ) : List ℕ :=
  idx.foldl (fun r g => r.set g (r.getD g 0 + 1)) (List.replicate n 0)

/-- Model of `np.bincount(idx, weights=w, minlength=n)` (same length remark). -/
def bincountW (idx : List ℕ) (w : List Val) (n : ℕ) : List Val :=
  (idx.zip w).foldl (fun r p => r.set p.1 ((r.getD p.1 .nan).add p.2)) (List.replicate n (.num 0))

/-- Model of `l.compress(cond)`: keep the elements whose condition is true;
a condition shorter than `l` truncates the selection, as in numpy (this is how
a scalar `a` behaves in `_all`/`_any`). -/
def compress {α : Type} (cond : List Bool) (l : List α) : List α :=
  ((l.zip cond).filter (fun p => p.2)).map Prod.fst

/-- Model of `np.max` on a possibly empty array (numpy raises on empty). -/
def npMax (l : List ℤ) : Option ℤ :=
  match l with
  | [] => none
  | x :: xs => some (xs.foldl max x)

/-- Modelled from the spec: `fill_untouched` is imported from `.utils`, which is
absent from the source tree.  Per the spec, groups untouched by any element of
`group_idx` get `fill_value`; touched slots are kept. -/
def fill_untouched (gi : List ℕ) (ret : List Val) (fill : Val) : List Val :=
  (List.range ret.length).map (fun i => if i ∈ gi then ret.getD i fill else fill)

/-! ### The reduction library (`_impl_dict` entries) -/

/-- Model of `_sum`: weighted bincount; a scalar `a` multiplies the plain
bincount; untouched groups are filled when `fill_value != 0`. -/
def sumImpl (gi : List ℕ) (a : VInput) (n : ℕ) (fill : Val) : List Val :=
  let ret : List Val :=
    match a with
    | .scalar v =>
      let counts := (bincount gi n).map (fun c : ℕ => Val.num (c : ℚ))
      if v ≠ .num 1 then counts.map (fun x => x.mul v) else counts
    | .arr l => bincountW gi l n
  if fill ≠ .num 0 then fill_untouched gi ret fill else ret

/-- Model of `_last`: plain forward scatter assignment; repeated indexing leaves
the last value. -/
def lastImpl (gi : List ℕ) (a : VInput) (n : ℕ) (fill : Val) : List Val :=
  let ret : List Val := if fill = .num 0 then List.replicate n (.num 0) else List.replicate n fill
  match a with
  | .scalar v => scatterConst ret gi v
  | .arr l => scatter ret gi l

/-- Model of `_first`: the `_last` trick over the reversed inputs. -/
def firstImpl (gi : List ℕ) (a : VInput) (n : ℕ) (fill : Val) : List Val :=
  let ret : List Val := if fill = .num 0 then List.replicate n (.num 0) else List.replicate n fill
  match a with
  | .scalar v => scatterConst ret gi.reverse v
  | .arr l => scatter ret gi.reverse l.reverse

/-- Model of `_prod`: touched slots seeded with 1 when `fill_value != 1`,
then `np.multiply.at`. -/
def prodImpl (gi : List ℕ) (a : VInput) (n : ℕ) (fill : Val) : List Val :=
  let ret := List.replicate n fill
  let ret := if fill ≠ .num 1 then scatterConst ret gi (.num 1) else ret
  match a with
  | .scalar v => ufuncAtScalar Val.mul ret gi v
  | .arr l => ufuncAt Val.mul ret gi l

/-- Model of `_min`: touched slots seeded with the dtype maximum (float64 in the
model), then `np.minimum.at`. -/
def minImpl (gi : List ℕ) (a : VInput) (n : ℕ) (fill : Val) : List Val :=
  let dmax := Val.num FMAX
  let ret := List.replicate n fill
  let ret := if fill ≠ dmax then scatterConst ret gi dmax else ret
  match a with
  | .scalar v => ufuncAtScalar Val.vmin ret gi v
  | .arr l => ufuncAt Val.vmin ret gi l

/-- Model of `_max`: touched slots seeded with the dtype minimum, then
`np.maximum.at`. -/
def maxImpl (gi : List ℕ) (a : VInput) (n : ℕ) (fill : Val) : List Val :=
  let dmin := Val.num FMIN
  let ret := List.replicate n fill
  let ret := if fill ≠ dmin then scatterConst ret gi dmin else ret
  match a with
  | .scalar v => ufuncAtScalar Val.vmax ret gi v
  | .arr l => ufuncAt Val.vmax ret gi l

/-- Model of `np.logical_not(a)` arranged along `group_idx` for `compress`
(a scalar gives a one-element condition, which numpy compress truncates with). -/
def notMask : VInput → List Bool
  | .scalar v => [! truthy v]
  | .arr l => l.map (fun v => ! truthy v)

/-- Truthiness mask of `a` for `_any`'s compress. -/
def posMask : VInput → List Bool
  | .scalar v => [truthy v]
  | .arr l => l.map truthy

/-- Modelled from the spec: `check_boolean` is imported from `.utils`, which is
absent from the source tree.  Per the spec, boolean aggregations require a
boolean fill value (0/False or 1/True). -/
def isBoolFill (v : Val) : Prop := v = .num 0 ∨ v = .num 1

instance (v : Val) : Decidable (isBoolFill v) := by
  unfold isBoolFill; infer_instance

/-- Model of `_all`: boolean output; touched groups reset to True when the fill
is falsy, then falsified at every zero element selected by compress. -/
def allImpl (gi : List ℕ) (a : VInput) (n : ℕ) (fill : Val) : Except AggError (List Val) :=
  if ¬ isBoolFill fill then .error .fillValueError
  else
    let fillB := truthy fill
    let ret : List Bool := List.replicate n fillB
    let ret := if fillB then ret else scatterConst ret gi true
    let ret := scatterConst ret (compress (notMask a) gi) false
    .ok (ret.map boolToVal)

/-- Model of `_any`: boolean output; touched groups reset to False when the fill
is truthy, then truthified at every nonzero element selected by compress. -/
def anyImpl (gi : List ℕ) (a : VInput) (n : ℕ) (fill : Val) : Except AggError (List Val) :=
  if ¬ isBoolFill fill then .error .fillValueError
  else
    let fillB := truthy fill
    let ret : List Bool := List.replicate n fillB
    let ret := if fillB then scatterConst ret gi false else ret
    let ret := scatterConst ret (compress (posMask a) gi) true
    .ok (ret.map boolToVal)

/-- Model of `np.isnan(a)` as a 0/1-valued input for `_allnan`/`_anynan`. -/
def isnanInput : VInput → VInput
  | .scalar v => .scalar (boolToVal v.isNan)
  | .arr l => .arr (l.map (fun v => boolToVal v.isNan))

/-- Model of `_allnan`: `_all` over the elementwise NaN test. -/
def allnanImpl (gi : List ℕ) (a : VInput) (n : ℕ) (fill : Val) : Except AggError (List Val) :=
  allImpl gi (isnanInput a) n fill

/-- Model of `_anynan`: `_any` over the elementwise NaN test. -/
def anynanImpl (gi : List ℕ) (a : VInput) (n : ℕ) (fill : Val) : Except AggError (List Val) :=
  anyImpl gi (isnanInput a) n fill

/-- Model of `_mean`: rejects scalar `a`; sums/counts per group with the natural
NaN from 0/0 on empty groups, overridden by `fill_value` unless it is NaN. -/
def meanImpl (gi : List ℕ) (a : VInput) (n : ℕ) (fill : Val) : Except AggError (List Val) :=
  match a with
  | .scalar _ => .error .scalarInput
  | .arr l =>
    let counts := bincount gi n
    let sums := bincountW gi l n
    let ret := (sums.zip counts).map (fun p => p.1.divNat p.2)
    let ret :=
      if ¬ fill.isNan then (ret.zip counts).map (fun p => if p.2 = 0 then fill else p.1)
      else ret
    .ok ret

/-- Model of `_var`/`_std` (`sqrt` flag): two passes, per-group mean then a
weighted bincount of squared deviations; `np.sqrt` is the abstract `sqrtFn`. -/
def varImpl (sqrtFn : Val → Val) (gi : List ℕ) (a : VInput) (n : ℕ) (fill : Val)
    (sqrt : Bool) : Except AggError (List Val) :=
  match a with
  | .scalar _ => .error .scalarInput
  | .arr l =>
    let counts := bincount gi n
    let sums := bincountW gi l n
    let means := (sums.zip counts).map (fun p => p.1.divNat p.2)
    let dev := (l.zip (gi.map (fun j => means.getD j .nan))).map
      (fun p => (p.1.sub p.2).mul (p.1.sub p.2))
    let ret := ((bincountW gi dev n).zip counts).map (fun p => p.1.divNat p.2)
    let ret := if sqrt then ret.map sqrtFn else ret
    let ret :=
      if ¬ fill.isNan then (ret.zip counts).map (fun p => if p.2 = 0 then fill else p.1)
      else ret
    .ok ret

/-- Dispatch over `_impl_dict` restricted to the modelled kinds. -/
def applyFunc (sqrtFn : Val → Val) (k : FuncKind) (gi : List ℕ) (a : VInput) (n : ℕ)
    (fill : Val) : Except AggError (List Val) :=
  match k with
  | .sum => .ok (sumImpl gi a n fill)
  | .prod => .ok (prodImpl gi a n fill)
  | .min => .ok (minImpl gi a n fill)
  | .max => .ok (maxImpl gi a n fill)
  | .first => .ok (firstImpl gi a n fill)
  | .last => .ok (lastImpl gi a n fill)
  | .mean => meanImpl gi a n fill
  | .var => varImpl sqrtFn gi a n fill false
  | .std => varImpl sqrtFn gi a n fill true
  | .all => allImpl gi a n fill
  | .any => anyImpl gi a n fill
  | .allnan => allnanImpl gi a n fill
  | .anynan => anynanImpl gi a n fill

/-! ### The orchestrator (`aggregate`) -/

/-- The length compatibility check `np.ndim(a) == 0 or len(a) == group_idx.shape[...]`. -/
def lenOk (a : VInput) (m : ℕ) : Bool :=
  match a with
  | .scalar _ => true
  | .arr l => l.length = m

/-- The nan-variant handling and reduction dispatch shared by the 1-D and 2-D
paths: strip NaN pairs for a nan- variant (rejecting kinds with no nan version
and scalar input), run the reduction, attach shape and dtype. -/
def aggFinish (sqrtFn : Val → Val) (f : FuncSpec) (a : VInput) (fill : Val)
    (dt : Option DType) (flat : List ℕ) (n : ℕ) (shape : List ℕ) : Except AggError Result :=
  if f.nanVariant then
    if f.kind ∈ noSepNan then .error .noNanVersion
    else
      match a with
      | .scalar _ => .error .scalarInput
      | .arr l =>
        let pairs := (flat.zip l).filter (fun p => ! p.2.isNan)
        (applyFunc sqrtFn f.kind (pairs.map Prod.fst) (.arr (pairs.map Prod.snd)) n fill).map
          (fun vals => ⟨vals, shape, outDType f.kind dt⟩)
  else
    (applyFunc sqrtFn f.kind flat a n fill).map
      (fun vals => ⟨vals, shape, outDType f.kind dt⟩)

/-- The 1-D validation path of `aggregate`: length check, negative check, then
the size check (`OutOfBounds`) or size inference `max(group_idx)+1`. -/
def agg1D (sqrtFn : Val → Val) (idx : List ℤ) (s0 : ℕ) (a : VInput) (f : FuncSpec)
    (size : Option SizeArg) (fill : Val) (dt : Option DType) : Except AggError Result :=
  if ¬ lenOk a s0 then .error .shapeMismatch
  else if idx.any (fun i => decide (i < 0)) then .error .invalidIndex
  else
    match size with
    | some (.seq _) => .error .shapeMismatch
    | some (.scalar s) =>
      if idx.any (fun i => decide ((s : ℤ) - 1 < i)) then .error .outOfBounds
      else aggFinish sqrtFn f a fill dt (idx.map Int.toNat) s [s]
    | none =>
      match npMax idx with
      | none => .error .emptyInput
      | some m => aggFinish sqrtFn f a fill dt (idx.map Int.toNat) (m.toNat + 1) [m.toNat + 1]

/-- The per-dimension strides of `np.ravel_multi_index` for the given order. -/
def strides (ord : Order) (sizes : List ℕ) : List ℕ :=
  match ord with
  | .C => (List.range sizes.length).map (fun d => (sizes.drop (d + 1)).prod)
  | .F => (List.range sizes.length).map (fun d => (sizes.take d).prod)

/-- The 2-D (multi-key) validation path: per-dimension sizes (given or inferred
as `max+1` per row), then `np.ravel_multi_index(mode='raise')`, which rejects
any out-of-range coordinate before combining. -/
def agg2D (sqrtFn : Val → Val) (k m : ℕ) (data : List ℤ) (a : VInput) (f : FuncSpec)
    (size : Option SizeArg) (fill : Val) (ord : Order) (dt : Option DType) :
    Except AggError Result :=
  if ¬ lenOk a m then .error .shapeMismatch
  else
    let rows := (List.range k).map (fun d => (data.drop (d * m)).take m)
    let sizesE : Except AggError (List ℕ) :=
      match size with
      | none =>
        if rows.any (fun r => r.isEmpty) then .error .emptyInput
        else .ok (rows.map (fun r => ((npMax r).getD 0 + 1).toNat))
      | some (.scalar _) => .error .shapeMismatch
      | some (.seq S) => if S.length ≠ k then .error .shapeMismatch else .ok S
    match sizesE with
    | .error e => .error e
    | .ok sizes =>
      let strs := strides ord sizes
      let cols := (List.range m).map (fun j => rows.map (fun r => r.getD j 0))
      if cols.all (fun coords =>
          (coords.zip sizes).all (fun p => decide (0 ≤ p.1 ∧ p.1 < (p.2 : ℤ)))) then
        let flat := cols.map (fun coords =>
          (((coords.map Int.toNat).zip strs).map (fun p => p.1 * p.2)).sum)
        aggFinish sqrtFn f a fill dt flat sizes.prod sizes
      else .error .invalidCoord

/-- Model of `aggregate` from `aggregate_numpy.py`: dimension dispatch on
`group_idx` (rejecting everything but 1 and 2 dimensions), validation, size
resolution, nan handling, reduction, and reshape (recorded in `Result.shape`). -/
def aggregate (sqrtFn : Val → Val) (group_idx : NDInt) (a : VInput) (f : FuncSpec)
    (size : Option SizeArg) (fill : Val) (ord : Order) (dt : Option DType) :
    Except AggError Result :=
  match group_idx.shape with
  | [s0] => agg1D sqrtFn group_idx.data s0 a f size fill dt
  | [s0, s1] => agg2D sqrtFn s0 s1 group_idx.data a f size fill ord dt
  | _ => .error .shapeMismatch

/-! ### The weave backend's var/std kernel -/

/-- Model of the weave var/std kernel: the driver initializes `ret` to
`fill_value`, `means` to zeros and `counter` to zeros, then `c_iter['std']`
accumulates count, sum and sum of squares in one pass, and
`c_finish['var'/'std']` turns each touched slot into
`(ret - means^2/counter) / (counter - ddof)` (rooted for std) and each
untouched slot into `fill_value`. -/
def weaveVar (sqrtFn : Val → Val) (gi : List ℕ) (l : List Val) (n : ℕ) (fill : Val)
    (ddof : ℕ) (sqrt : Bool) : List Val :=
  let st := (gi.zip l).foldl
    (fun (st : List Val × List Val × List ℕ) p =>
      (st.1.set p.1 ((st.1.getD p.1 .nan).add (p.2.mul p.2)),
       st.2.1.set p.1 ((st.2.1.getD p.1 .nan).add p.2),
       st.2.2.set p.1 (st.2.2.getD p.1 0 + 1)))
    (List.replicate n fill, List.replicate n (.num 0), List.replicate n 0)
  (List.range n).map (fun i =>
    let c := st.2.2.getD i 0
    if c ≠ 0 then
      let mean2 := (st.2.1.getD i .nan).mul (st.2.1.getD i .nan)
      let v := ((st.1.getD i .nan).sub (mean2.divNat c)).divNat (c - ddof)
      if sqrt then sqrtFn v else v
    else fill)

/-! ### Specification-side vocabulary

The following definitions express the properties the claims talk about; they are
deliberately distinct from the implementation's folds. -/

/-- The rational payload of a value (0 for NaN; only used under no-NaN hypotheses). -/
def Val.toQ : Val → ℚ
  | .nan => 0
  | .num q => q

/-- Left fold of `Val.add` starting from `acc`: the model's sequential sum. -/
def addList (acc : Val) (l : List Val) : Val := l.foldl Val.add acc

/-- The values whose group index equals `g`, in input order. -/
def groupVals (gi : List ℕ) (l : List Val) (g : ℕ) : List Val :=
  ((gi.zip l).filter (fun p => p.1 = g)).map Prod.snd

/-- The value written by the latest (rightmost) pair with first component `g`. -/
def findLast {α : Type} (pairs : List (ℕ × α)) (g : ℕ) : Option α :=
  pairs.foldl (fun acc p => if p.1 = g then some p.2 else acc) none

/-! ### Generic fold lemmas -/

theorem foldl_length {α β : Type} (f : List β → α → List β)
    (hf : ∀ r x, (f r x).length = r.length) (l : List α) :
    ∀ r : List β, (l.foldl f r).length = r.length := by
  induction l with
  | nil => intro r; rfl
  | cons x xs ih => intro r; rw [List.foldl_cons, ih, hf]

theorem scatter_length {α : Type} (ret : List α) (idx : List ℕ) (a : List α) :
    (scatter ret idx a).length = ret.length := by
  unfold scatter
  exact foldl_length (fun (r : List α) (p : ℕ × α) => r.set p.1 p.2)
    (fun r p => r.length_set p.1 p.2) _ ret

theorem scatterConst_length {α : Type} (ret : List α) (idx : List ℕ) (v : α) :
    (scatterConst ret idx v).length = ret.length := by
  unfold scatterConst
  exact foldl_length (fun (r : List α) (g : ℕ) => r.set g v)
    (fun r g => r.length_set g v) _ ret

theorem ufuncAt_length (op : Val → Val → Val) (ret : List Val) (idx : List ℕ) (a : List Val) :
    (ufuncAt op ret idx a).length = ret.length := by
  unfold ufuncAt
  exact foldl_length (fun (r : List Val) (p : ℕ × Val) => r.set p.1 (op (r.getD p.1 .nan) p.2))
    (fun r p => r.length_set p.1 _) _ ret

theorem ufuncAtScalar_length (op : Val → Val → Val) (ret : List Val) (idx : List ℕ) (v : Val) :
    (ufuncAtScalar op ret idx v).length = ret.length := by
  unfold ufuncAtScalar
  exact foldl_length (fun (r : List Val) (g : ℕ) => r.set g (op (r.getD g .nan) v))
    (fun r g => r.length_set g _) _ ret

theorem bincount_length (idx : List ℕ) (n : ℕ) : (bincount idx n).length = n := by
  unfold bincount
  rw [foldl_length (fun (r : List ℕ) (g : ℕ) => r.set g (r.getD g 0 + 1))
    (fun r g => r.length_set g _), List.length_replicate]

theorem bincountW_length (idx : List ℕ) (w : List Val) (n : ℕ) :
    (bincountW idx w n).length = n := by
  unfold bincountW
  rw [foldl_length (fun (r : List Val) (p : ℕ × Val) => r.set p.1 ((r.getD p.1 .nan).add p.2))
    (fun r p => r.length_set p.1 _), List.length_replicate]

theorem fill_untouched_length (gi : List ℕ) (ret : List Val) (fill : Val) :
    (fill_untouched gi ret fill).length = ret.length := by
  simp [fill_untouched]

/-! ### Per-slot characterizations of the accumulating folds -/

theorem getD_eq_getElem? {α : Type} (l : List α) (i : ℕ) (d : α) :
    l.getD i d = (l[i]?).getD d := by
  simp [List.getD]

theorem zip_getElem?_of {α β : Type} (l1 : List α) (l2 : List β) (i : ℕ) (a : α) (b : β)
    (h1 : l1[i]? = some a) (h2 : l2[i]? = some b) : (l1.zip l2)[i]? = some (a, b) := by
  induction l1 generalizing l2 i with
  | nil => simp at h1
  | cons x xs ih =>
    cases l2 with
    | nil => simp at h2
    | cons y ys =>
      cases i with
      | zero => simp_all
      | succ j =>
        simp only [List.getElem?_cons_succ] at h1 h2
        simp only [List.zip_cons_cons, List.getElem?_cons_succ]
        exact ih ys j h1 h2

theorem zip_getElem?_fst {α β : Type} (l1 : List α) (l2 : List β) (i : ℕ) (q : α × β)
    (h : (l1.zip l2)[i]? = some q) : l1[i]? = some q.1 := by
  induction l1 generalizing l2 i with
  | nil => simp at h
  | cons x xs ih =>
    cases l2 with
    | nil => simp at h
    | cons y ys =>
      cases i with
      | zero =>
        simp only [List.zip_cons_cons, List.getElem?_cons_zero, Option.some.injEq] at h
        subst h
        simp
      | succ j =>
        simp only [List.zip_cons_cons, List.getElem?_cons_succ] at h
        simp only [List.getElem?_cons_succ]
        exact ih ys j h

theorem zip_reverse {α β : Type} (l1 : List α) (l2 : List β) (h : l1.length = l2.length) :
    l1.reverse.zip l2.reverse = (l1.zip l2).reverse := by
  induction l1 generalizing l2 with
  | nil => cases l2 with
    | nil => rfl
    | cons y ys => simp at h
  | cons x xs ih =>
    cases l2 with
    | nil => simp at h
    | cons y ys =>
      have hlen : xs.length = ys.length := by simpa using h
      simp only [List.reverse_cons, List.zip_cons_cons]
      rw [List.zip_append (by simpa using hlen), ih ys hlen]
      rfl

/-- A counting fold (the body of `bincount`) adds the number of occurrences to
the starting slot value. -/
theorem accumC_get (l : List ℕ) (g : ℕ) :
    ∀ ret : List ℕ, g < ret.length →
      (l.foldl (fun r i => r.set i (r.getD i 0 + 1)) ret)[g]? = some (ret.getD g 0 + l.count g) := by
  induction l with
  | nil => intro ret hg; simp [getD_eq_getElem?, List.getElem?_eq_getElem hg, List.count_nil]
  | cons i rest ih =>
    intro ret hg
    rw [List.foldl_cons]
    have hlen : (ret.set i (ret.getD i 0 + 1)).length = ret.length := ret.length_set i _
    by_cases hig : i = g
    · subst hig
      rw [ih _ (by rw [hlen]; exact hg)]
      have : (ret.set i (ret.getD i 0 + 1)).getD i 0 = ret.getD i 0 + 1 := by
        rw [getD_eq_getElem?, List.getElem?_set_eq_of_lt _ hg]; rfl
      rw [this, List.count_cons_self]
      congr 1
      omega
    · rw [ih _ (by rw [hlen]; exact hg)]
      have : (ret.set i (ret.getD i 0 + 1)).getD g 0 = ret.getD g 0 := by
        rw [getD_eq_getElem?, List.getElem?_set_ne hig, getD_eq_getElem?]
      rw [this, List.count_cons_of_ne (by exact fun hc => hig hc.symm)]

/-- An accumulating fold (the body of `bincountW` and of the weave kernels)
adds, slot by slot, the `f`-image of the values of each group to the starting
slot value. -/
theorem accumW_get (f : Val → Val) (pairs : List (ℕ × Val)) (g : ℕ) :
    ∀ ret : List Val, g < ret.length →
      (pairs.foldl (fun r p => r.set p.1 ((r.getD p.1 .nan).add (f p.2))) ret)[g]?
        = some (addList (ret.getD g .nan) (((pairs.filter (fun p => p.1 = g)).map Prod.snd).map f)) := by
  induction pairs with
  | nil => intro ret hg; simp [addList, getD_eq_getElem?, List.getElem?_eq_getElem hg]
  | cons p rest ih =>
    intro ret hg
    rw [List.foldl_cons]
    have hlen : (ret.set p.1 ((ret.getD p.1 .nan).add (f p.2))).length = ret.length :=
      ret.length_set p.1 _
    by_cases hpg : p.1 = g
    · rw [ih _ (by rw [hlen]; exact hg)]
      have hslot : (ret.set p.1 ((ret.getD p.1 .nan).add (f p.2))).getD g .nan
          = (ret.getD g .nan).add (f p.2) := by
        rw [getD_eq_getElem?, hpg, List.getElem?_set_eq_of_lt _ hg]
        subst hpg; rfl
      rw [hslot, List.filter_cons_of_pos (by simpa using hpg)]
      simp [addList]
    · rw [ih _ (by rw [hlen]; exact hg)]
      have hslot : (ret.set p.1 ((ret.getD p.1 .nan).add (f p.2))).getD g .nan
          = ret.getD g .nan := by
        rw [getD_eq_getElem?, List.getElem?_set_ne hpg, getD_eq_getElem?]
      rw [hslot, List.filter_cons_of_neg (by simpa using hpg)]

theorem bincount_get (gi : List ℕ) (n g : ℕ) (hg : g < n) :
    (bincount gi n)[g]? = some (gi.count g) := by
  unfold bincount
  rw [accumC_get gi g _ (by simpa using hg)]
  simp [getD_eq_getElem?, List.getElem?_replicate, hg]

theorem bincountW_get (gi : List ℕ) (l : List Val) (n g : ℕ) (hg : g < n) :
    (bincountW gi l n)[g]? = some (addList (.num 0) (groupVals gi l g)) := by
  have h := accumW_get (fun v => v) (gi.zip l) g (List.replicate n (.num 0)) (by simpa using hg)
  have hrep : (List.replicate n (Val.num 0)).getD g .nan = .num 0 := by
    rw [getD_eq_getElem?, List.getElem?_replicate]
    simp [hg]
  rw [hrep, List.map_id'] at h
  unfold bincountW
  rw [h, groupVals]

/-! ### Scatter assignment and overwrite order -/

theorem foldlLast_acc {α : Type} (pairs : List (ℕ × α)) (g : ℕ) :
    ∀ acc : Option α,
      pairs.foldl (fun a p => if p.1 = g then some p.2 else a) acc
        = (findLast pairs g).elim acc some := by
  induction pairs with
  | nil => intro acc; rfl
  | cons p rest ih =>
    intro acc
    rw [List.foldl_cons, ih]
    have hR : findLast (p :: rest) g
        = (findLast rest g).elim (if p.1 = g then some p.2 else none) some := by
      unfold findLast
      rw [List.foldl_cons]
      exact ih (if p.1 = g then some p.2 else none)
    rw [hR]
    rcases hfr : findLast rest g with _ | w
    · by_cases hpg : p.1 = g <;> simp [hpg]
    · simp

theorem findLast_cons {α : Type} (p : ℕ × α) (rest : List (ℕ × α)) (g : ℕ) :
    findLast (p :: rest) g
      = (findLast rest g).elim (if p.1 = g then some p.2 else none) some := by
  unfold findLast
  rw [List.foldl_cons]
  exact foldlLast_acc rest g (if p.1 = g then some p.2 else none)

theorem findLast_none {α : Type} (pairs : List (ℕ × α)) (g : ℕ)
    (h : ∀ q ∈ pairs, q.1 ≠ g) : findLast pairs g = none := by
  induction pairs with
  | nil => rfl
  | cons p rest ih =>
    rw [findLast_cons, ih (fun q hq => h q (List.mem_cons_of_mem p hq))]
    simp [h p (List.mem_cons_self p rest)]

/-- A scatter fold leaves, at each slot, the last value written to it (or the
starting value when no pair targets the slot). -/
theorem scatter_pairs_get {α : Type} (pairs : List (ℕ × α)) (g : ℕ) :
    ∀ ret : List α, g < ret.length →
      (pairs.foldl (fun r p => r.set p.1 p.2) ret)[g]? = (findLast pairs g).elim ret[g]? some := by
  induction pairs with
  | nil => intro ret hg; rfl
  | cons p rest ih =>
    intro ret hg
    rw [List.foldl_cons, findLast_cons,
      ih (ret.set p.1 p.2) (by rw [ret.length_set]; exact hg)]
    cases findLast rest g with
    | some w => rfl
    | none =>
      by_cases hpg : p.1 = g
      · subst hpg
        simp [List.getElem?_set_eq_of_lt _ hg]
      · simp [List.getElem?_set_ne hpg, hpg]

/-- The value found by `findLast` is the one at the greatest position whose
first component is `g`. -/
theorem findLast_eq_of_last {α : Type} (pairs : List (ℕ × α)) (g : ℕ) :
    ∀ (j : ℕ) (v : α), pairs[j]? = some (g, v) →
      (∀ k, j < k → ∀ q : ℕ × α, pairs[k]? = some q → q.1 ≠ g) →
      findLast pairs g = some v := by
  induction pairs with
  | nil => intro j v hj; simp at hj
  | cons p rest ih =>
    intro j v hj hlast
    rw [findLast_cons]
    cases j with
    | zero =>
      simp only [List.getElem?_cons_zero, Option.some.injEq] at hj
      have hnone : findLast rest g = none := by
        apply findLast_none
        intro q hq
        obtain ⟨k, hk⟩ := List.mem_iff_getElem?.mp hq
        exact hlast (k + 1) (Nat.succ_pos k) q (by simpa using hk)
      rw [hnone]
      subst hj
      simp
    | succ j =>
      simp only [List.getElem?_cons_succ] at hj
      rw [ih j v hj (fun k hk q hq => hlast (k + 1) (by omega) q (by simpa using hq))]
      rfl

/-- Over the reversed pairs, `findLast` finds the value at the least position
whose first component is `g`. -/
theorem findLast_reverse_eq_of_first {α : Type} (pairs : List (ℕ × α)) (g : ℕ) :
    ∀ (j : ℕ) (v : α), pairs[j]? = some (g, v) →
      (∀ k, k < j → ∀ q : ℕ × α, pairs[k]? = some q → q.1 ≠ g) →
      findLast pairs.reverse g = some v := by
  induction pairs with
  | nil => intro j v hj; simp at hj
  | cons p rest ih =>
    intro j v hj hfirst
    have hsplit : findLast (p :: rest).reverse g
        = if p.1 = g then some p.2 else findLast rest.reverse g := by
      rw [show (p :: rest).reverse = rest.reverse ++ [p] from List.reverse_cons p rest]
      unfold findLast
      rw [List.foldl_append, List.foldl_cons, List.foldl_nil]
    rw [hsplit]
    cases j with
    | zero =>
      simp only [List.getElem?_cons_zero, Option.some.injEq] at hj
      subst hj
      simp
    | succ j =>
      simp only [List.getElem?_cons_succ] at hj
      have hp : p.1 ≠ g := by
        have := hfirst 0 (Nat.succ_pos j) p (by simp)
        exact this
      rw [if_neg hp]
      exact ih j v hj (fun k hk q hq => hfirst (k + 1) (by omega) q (by simpa using hq))

/-! ### Sums of values -/

theorem addList_cons (acc : Val) (v : Val) (l : List Val) :
    addList acc (v :: l) = addList (acc.add v) l := rfl

theorem addList_nan (l : List Val) : addList .nan l = .nan := by
  induction l with
  | nil => rfl
  | cons v rest ih =>
    rw [addList_cons]
    cases v <;> simpa [Val.add] using ih

theorem addList_num (l : List Val) :
    ∀ a : ℚ, (∀ v ∈ l, v.isNan = false) → addList (.num a) l = .num (a + (l.map Val.toQ).sum) := by
  induction l with
  | nil => intro a _; simp [addList]
  | cons v rest ih =>
    intro a h
    cases v with
    | nan => simpa [Val.isNan] using h .nan (List.mem_cons_self _ _)
    | num q =>
      rw [addList_cons]
      show addList (.num (a + q)) rest = _
      rw [ih (a + q) (fun w hw => h w (List.mem_cons_of_mem _ hw))]
      simp [Val.toQ]
      ring

theorem addList_hasNan (l : List Val) (acc : Val) (h : ∃ v ∈ l, v.isNan = true) :
    addList acc l = .nan := by
  induction l generalizing acc with
  | nil => simp at h
  | cons v rest ih =>
    rw [addList_cons]
    obtain ⟨w, hw, hwn⟩ := h
    rcases List.mem_cons.mp hw with hwv | hwrest
    · subst hwv
      cases w with
      | nan =>
        have : acc.add .nan = .nan := by cases acc <;> rfl
        rw [this, addList_nan]
      | num q => simp [Val.isNan] at hwn
    · exact ih _ ⟨w, hwrest, hwn⟩

/-! ### Claim C1 -/

/-- C1: for `group_idx=[1,0,1,4,1]`, `values=[12.0,3.2,-15,88,12.9]`, `func="sum"`
and no size argument, `aggregate` infers the output size `max(group_idx)+1 = 5`
and returns exactly `[3.2, 9.9, 0, 0, 88]`: each slot is the sum of the values
whose group index equals the slot, and empty groups hold the fill value 0. -/
theorem C1_sum_concrete :
    aggregate id ⟨[5], [1, 0, 1, 4, 1]⟩
      (.arr [.num 12, .num 3.2, .num (-15), .num 88, .num 12.9])
      ⟨.sum, false⟩ none (.num 0) .F none
    = .ok ⟨[.num 3.2, .num 9.9, .num 0, .num 0, .num 88], [5], none⟩ := by
  norm_num [aggregate, agg1D, aggFinish, applyFunc, sumImpl, bincountW, npMax,
    Val.add, Val.isNan, noSepNan, lenOk, List.replicate, Int.toNat, List.set,
    List.getD, outDType, Except.map]

/-! ### Claim C9 -/

/-- C9: `aggregate` rejects every `group_idx` whose dimensionality is neither 1
nor 2 (a scalar index or three or more dimensions) with a shape error, before
any reduction is attempted. -/
theorem C9_ndim_rejected (sqrtFn : Val → Val) (gi : NDInt) (a : VInput) (f : FuncSpec)
    (size : Option SizeArg) (fill : Val) (ord : Order) (dt : Option DType)
    (h1 : gi.shape.length ≠ 1) (h2 : gi.shape.length ≠ 2) :
    aggregate sqrtFn gi a f size fill ord dt = .error .shapeMismatch := by
  unfold aggregate
  rcases gi with ⟨shape, data⟩
  match shape with
  | [] => rfl
  | [s0] => exact absurd rfl h1
  | [s0, s1] => exact absurd rfl h2
  | s0 :: s1 :: s2 :: rest => rfl

/-- C9 witness: a 3-dimensional group index is rejected. -/
theorem C9_ndim_rejected_witness :
    aggregate id ⟨[2, 2, 2], [0, 1, 0, 1, 0, 1, 0, 1]⟩ (.arr [.num 1]) ⟨.sum, false⟩
      none (.num 0) .F none = .error .shapeMismatch :=
  C9_ndim_rejected id _ _ _ _ _ _ _ (by decide) (by decide)

/-! ### Claim C5, counterexample part -/

/-- C5 counterexample: `aggregate` does not accept a scalar `values` for every
reduction kind.  For `func="mean"` a scalar is rejected (`_mean` raises
"cannot take mean with scalar a"), while the equivalent broadcast sequence of
the same length succeeds, so scalar and broadcast-sequence calls are not
interchangeable. -/
theorem C5_scalar_mean_cex :
    aggregate id ⟨[2], [0, 1]⟩ (.scalar (.num 2)) ⟨.mean, false⟩ none (.num 0) .F none
      = .error .scalarInput
    ∧ aggregate id ⟨[2], [0, 1]⟩ (.arr [.num 2, .num 2]) ⟨.mean, false⟩ none (.num 0) .F none
      = .ok ⟨[.num 2, .num 2], [2], some .float⟩ := by
  constructor
  · norm_num [aggregate, agg1D, aggFinish, applyFunc, meanImpl, npMax, lenOk, noSepNan,
      Except.map]
  · norm_num [aggregate, agg1D, aggFinish, applyFunc, meanImpl, npMax, lenOk, noSepNan,
      bincount, bincountW, Val.add, Val.divNat, Val.isNan, List.replicate, Int.toNat,
      List.set, List.getD, outDType, Except.map, List.zip]

/-! ### Claim C8, counterexample part -/

/-- C8 counterexample: the weave backend does not return the same result as the
numpy backend on every optimized input.  For `func="var"`, `group_idx=[0]`,
`values=[1]` and `fill_value=5`, numpy's `_var` returns `[0]` (the variance of a
one-element group), while the weave kernel returns `[5]`, because the weave
driver initializes its sum-of-squares accumulator to `fill_value` instead of 0. -/
theorem C8_weave_var_fill_cex :
    applyFunc id .var [0] (.arr [.num 1]) 1 (.num 5) = .ok [.num 0]
    ∧ weaveVar id [0] [.num 1] 1 (.num 5) 0 false = [.num 5]
    ∧ Val.num (5 : ℚ) ≠ Val.num (0 : ℚ) := by
  refine ⟨?_, ?_, ?_⟩
  · norm_num [applyFunc, varImpl, bincount, bincountW, Val.add, Val.sub, Val.mul,
      Val.divNat, Val.isNan, List.replicate, List.set, List.getD, List.zip]
  · norm_num [weaveVar, Val.add, Val.sub, Val.mul, Val.divNat, List.replicate,
      List.set, List.getD, List.zip, List.range_succ, List.range_zero]
  · intro h
    have : (5 : ℚ) = 0 := by injection h
    norm_num at this

/-! ### Claim C2 -/

theorem fillInit_eq (n : ℕ) (fill : Val) :
    (if fill = Val.num 0 then List.replicate n (Val.num 0) else List.replicate n fill)
      = List.replicate n fill := by
  split <;> simp_all

/-- C2: for every non-empty group `g`, `func="last"` returns at position `g` the
value paired with the greatest input position whose group index is `g` (forward
scatter assignment, later writes overwrite earlier ones), `func="first"` returns
the value at the least such position (the same scatter over the reversed
input), and every empty group holds the pre-filled fill value. -/
theorem C2_first_last (gi : List ℕ) (l : List Val) (n : ℕ) (fill : Val) (g : ℕ)
    (hlen : gi.length = l.length) (hg : g < n) :
    (∀ (j : ℕ) (v : Val), gi[j]? = some g → l[j]? = some v →
      (∀ k : ℕ, j < k → gi[k]? ≠ some g) →
      (lastImpl gi (.arr l) n fill)[g]? = some v)
    ∧ (∀ (j : ℕ) (v : Val), gi[j]? = some g → l[j]? = some v →
      (∀ k : ℕ, k < j → gi[k]? ≠ some g) →
      (firstImpl gi (.arr l) n fill)[g]? = some v)
    ∧ ((∀ j : ℕ, gi[j]? ≠ some g) →
      (lastImpl gi (.arr l) n fill)[g]? = some fill
      ∧ (firstImpl gi (.arr l) n fill)[g]? = some fill) := by
  have hrl : (List.replicate n fill).length = n := List.length_replicate n fill
  have hlast_eq : lastImpl gi (.arr l) n fill = scatter (List.replicate n fill) gi l := by
    unfold lastImpl
    rw [fillInit_eq]
  have hfirst_eq : firstImpl gi (.arr l) n fill
      = scatter (List.replicate n fill) gi.reverse l.reverse := by
    unfold firstImpl
    rw [fillInit_eq]
  have hrep : (List.replicate n fill)[g]? = some fill := by
    simp [List.getElem?_replicate, hg]
  have hgl : g < (List.replicate n fill).length := by rw [hrl]; exact hg
  refine ⟨?_, ?_, ?_⟩
  · intro j v hj hv hlast
    have hpair : (gi.zip l)[j]? = some (g, v) := zip_getElem?_of gi l j g v hj hv
    have hfl : findLast (gi.zip l) g = some v := by
      apply findLast_eq_of_last (gi.zip l) g j v hpair
      intro k hk q hq hqg
      exact hlast k hk (by rw [← hqg]; exact zip_getElem?_fst gi l k q hq)
    rw [hlast_eq]
    unfold scatter
    rw [scatter_pairs_get (gi.zip l) g (List.replicate n fill) hgl, hfl]
    rfl
  · intro j v hj hv hfirst
    have hpair : (gi.zip l)[j]? = some (g, v) := zip_getElem?_of gi l j g v hj hv
    have hfl : findLast (gi.reverse.zip l.reverse) g = some v := by
      rw [zip_reverse gi l hlen]
      apply findLast_reverse_eq_of_first (gi.zip l) g j v hpair
      intro k hk q hq hqg
      exact hfirst k hk (by rw [← hqg]; exact zip_getElem?_fst gi l k q hq)
    rw [hfirst_eq]
    unfold scatter
    rw [scatter_pairs_get (gi.reverse.zip l.reverse) g (List.replicate n fill) hgl, hfl]
    rfl
  · intro hnone
    have hmem : ∀ q ∈ gi.zip l, q.1 ≠ g := by
      intro q hq hqg
      obtain ⟨k, hk⟩ := List.mem_iff_getElem?.mp (List.of_mem_zip hq).1
      exact hnone k (by rw [hk, hqg])
    constructor
    · rw [hlast_eq]
      unfold scatter
      rw [scatter_pairs_get (gi.zip l) g (List.replicate n fill) hgl,
        findLast_none (gi.zip l) g hmem, hrep]
      rfl
    · rw [hfirst_eq]
      unfold scatter
      rw [scatter_pairs_get (gi.reverse.zip l.reverse) g (List.replicate n fill) hgl,
        zip_reverse gi l hlen,
        findLast_none ((gi.zip l).reverse) g (fun q hq => hmem q (List.mem_reverse.mp hq)),
        hrep]
      rfl

/-- C2 witness: with groups `[0,1,0]` and values `[10,20,30]`, `last` yields 30
and `first` yields 10 at group 0. -/
theorem C2_first_last_witness :
    (lastImpl [0, 1, 0] (.arr [.num 10, .num 20, .num 30]) 2 (.num 7))[0]? = some (.num 30)
    ∧ (firstImpl [0, 1, 0] (.arr [.num 10, .num 20, .num 30]) 2 (.num 7))[0]? = some (.num 10) := by
  have h := C2_first_last [0, 1, 0] [.num 10, .num 20, .num 30] 2 (.num 7) 0 rfl (by decide)
  constructor
  · apply h.1 2 (.num 30) rfl rfl
    intro k hk
    rw [List.getElem?_eq_none (by simp; omega)]
    simp
  · apply h.2.1 0 (.num 10) rfl rfl
    intro k hk
    omega

/-! ### Claim C3 -/

theorem groupVals_nil_of_count (gi : List ℕ) (l : List Val) (g : ℕ) (h : gi.count g = 0) :
    groupVals gi l g = [] := by
  unfold groupVals
  rw [List.map_eq_nil_iff, List.filter_eq_nil_iff]
  intro q hq
  simp only [decide_eq_true_eq]
  intro hqg
  exact (List.count_eq_zero.mp h) (hqg ▸ (List.of_mem_zip hq).1)

/-- C3: for `func="mean"`, the default output dtype is float regardless of the
input values, each non-empty group holds the bincount sum of its values divided
by its element count, and each empty group holds the fill value — except that a
NaN fill value is not written back, leaving the natural NaN from the 0/0
division. -/
theorem C3_mean (gi : List ℕ) (l : List Val) (n : ℕ) (fill : Val) (g : ℕ)
    (hg : g < n) (ret : List Val)
    (hok : meanImpl gi (.arr l) n fill = .ok ret) :
    (gi.count g ≠ 0 →
      ret[g]? = some ((addList (.num 0) (groupVals gi l g)).divNat (gi.count g)))
    ∧ (gi.count g = 0 → ret[g]? = some (if fill.isNan then .nan else fill))
    ∧ outDType .mean none = some .float := by
  have hc := bincount_get gi n g hg
  have hs := bincountW_get gi l n g hg
  unfold meanImpl at hok
  simp only [Except.ok.injEq] at hok
  subst hok
  have hzip1 : ((bincountW gi l n).zip (bincount gi n))[g]?
      = some (addList (.num 0) (groupVals gi l g), gi.count g) :=
    zip_getElem?_of _ _ _ _ _ hs hc
  have hret0 : (((bincountW gi l n).zip (bincount gi n)).map (fun p => p.1.divNat p.2))[g]?
      = some ((addList (.num 0) (groupVals gi l g)).divNat (gi.count g)) := by
    rw [List.getElem?_map, hzip1]
    rfl
  refine ⟨?_, ?_, rfl⟩
  · intro hcne
    by_cases hnan : fill.isNan = true
    · rw [if_neg (by simp [hnan])]
      exact hret0
    · rw [if_pos (by simp [hnan])]
      have hz2 := zip_getElem?_of _ _ _ _ _ hret0 hc
      rw [List.getElem?_map, hz2]
      simp [hcne]
  · intro hc0
    have hS : addList (.num 0) (groupVals gi l g) = .num 0 := by
      rw [groupVals_nil_of_count gi l g hc0]
      rfl
    by_cases hnan : fill.isNan = true
    · rw [if_neg (by simp [hnan])]
      rw [hret0, hS, hc0]
      simp [Val.divNat, hnan]
    · rw [if_pos (by simp [hnan])]
      have hz2 := zip_getElem?_of _ _ _ _ _ hret0 hc
      rw [List.getElem?_map, hz2]
      simp [hc0, hnan]

/-- C3 witness: groups `[0,0,1]`, values `[1,2,5]`: group 0 holds its sum over
its count. -/
theorem C3_mean_witness :
    ∃ ret, meanImpl [0, 0, 1] (.arr [.num 1, .num 2, .num 5]) 2 (.num 7) = .ok ret
      ∧ ret[0]? = some ((addList (.num 0)
          (groupVals [0, 0, 1] [.num 1, .num 2, .num 5] 0)).divNat ([0, 0, 1].count 0)) := by
  refine ⟨_, rfl, ?_⟩
  exact (C3_mean [0, 0, 1] [.num 1, .num 2, .num 5] 2 (.num 7) 0 (by decide) _ rfl).1 (by decide)

/-! ### Output length of every reduction -/

theorem sumImpl_length (gi : List ℕ) (a : VInput) (n : ℕ) (fill : Val) :
    (sumImpl gi a n fill).length = n := by
  have hfill : ∀ X : List Val, X.length = n →
      (if fill ≠ Val.num 0 then fill_untouched gi X fill else X).length = n := by
    intro X hXl
    split
    · rw [fill_untouched_length, hXl]
    · exact hXl
  unfold sumImpl
  cases a with
  | scalar v =>
    apply hfill
    show (if v ≠ Val.num 1
        then ((bincount gi n).map (fun c : ℕ => Val.num (c : ℚ))).map (fun x => x.mul v)
        else (bincount gi n).map (fun c : ℕ => Val.num (c : ℚ))).length = n
    split
    · rw [List.length_map, List.length_map, bincount_length]
    · rw [List.length_map, bincount_length]
  | arr l =>
    apply hfill
    show (bincountW gi l n).length = n
    exact bincountW_length gi l n

theorem prodImpl_length (gi : List ℕ) (a : VInput) (n : ℕ) (fill : Val) :
    (prodImpl gi a n fill).length = n := by
  unfold prodImpl
  cases a with
  | scalar v =>
    rw [ufuncAtScalar_length]
    split <;> simp [scatterConst_length]
  | arr l =>
    rw [ufuncAt_length]
    split <;> simp [scatterConst_length]

theorem minImpl_length (gi : List ℕ) (a : VInput) (n : ℕ) (fill : Val) :
    (minImpl gi a n fill).length = n := by
  unfold minImpl
  cases a with
  | scalar v =>
    rw [ufuncAtScalar_length]
    split <;> simp [scatterConst_length]
  | arr l =>
    rw [ufuncAt_length]
    split <;> simp [scatterConst_length]

theorem maxImpl_length (gi : List ℕ) (a : VInput) (n : ℕ) (fill : Val) :
    (maxImpl gi a n fill).length = n := by
  unfold maxImpl
  cases a with
  | scalar v =>
    rw [ufuncAtScalar_length]
    split <;> simp [scatterConst_length]
  | arr l =>
    rw [ufuncAt_length]
    split <;> simp [scatterConst_length]

theorem lastImpl_length (gi : List ℕ) (a : VInput) (n : ℕ) (fill : Val) :
    (lastImpl gi a n fill).length = n := by
  unfold lastImpl
  rw [fillInit_eq]
  cases a with
  | scalar v => simp [scatterConst_length]
  | arr l => simp [scatter_length]

theorem firstImpl_length (gi : List ℕ) (a : VInput) (n : ℕ) (fill : Val) :
    (firstImpl gi a n fill).length = n := by
  unfold firstImpl
  rw [fillInit_eq]
  cases a with
  | scalar v => simp [scatterConst_length]
  | arr l => simp [scatter_length]

theorem allImpl_ok_length (gi : List ℕ) (a : VInput) (n : ℕ) (fill : Val) (vals : List Val)
    (hok : allImpl gi a n fill = .ok vals) : vals.length = n := by
  unfold allImpl at hok
  split at hok
  · cases hok
  · simp only [Except.ok.injEq] at hok
    subst hok
    rw [List.length_map, scatterConst_length]
    split <;> simp [scatterConst_length]

theorem anyImpl_ok_length (gi : List ℕ) (a : VInput) (n : ℕ) (fill : Val) (vals : List Val)
    (hok : anyImpl gi a n fill = .ok vals) : vals.length = n := by
  unfold anyImpl at hok
  split at hok
  · cases hok
  · simp only [Except.ok.injEq] at hok
    subst hok
    rw [List.length_map, scatterConst_length]
    split <;> simp [scatterConst_length]

theorem meanImpl_ok_length (gi : List ℕ) (a : VInput) (n : ℕ) (fill : Val) (vals : List Val)
    (hok : meanImpl gi a n fill = .ok vals) : vals.length = n := by
  unfold meanImpl at hok
  cases a with
  | scalar v => cases hok
  | arr l =>
    simp only [Except.ok.injEq] at hok
    subst hok
    split <;> simp [bincount_length, bincountW_length]

theorem varImpl_ok_length (sqrtFn : Val → Val) (gi : List ℕ) (a : VInput) (n : ℕ)
    (fill : Val) (sq : Bool) (vals : List Val)
    (hok : varImpl sqrtFn gi a n fill sq = .ok vals) : vals.length = n := by
  unfold varImpl at hok
  cases a with
  | scalar v => cases hok
  | arr l =>
    simp only [Except.ok.injEq] at hok
    subst hok
    split <;> split <;> simp [bincount_length, bincountW_length]

theorem applyFunc_ok_length (sqrtFn : Val → Val) (k : FuncKind) (gi : List ℕ) (a : VInput)
    (n : ℕ) (fill : Val) (vals : List Val)
    (hok : applyFunc sqrtFn k gi a n fill = .ok vals) : vals.length = n := by
  cases k <;> simp only [applyFunc] at hok
  case sum => exact (Except.ok.injEq _ _ ▸ hok.symm) ▸ sumImpl_length gi a n fill
  case prod => exact (Except.ok.injEq _ _ ▸ hok.symm) ▸ prodImpl_length gi a n fill
  case min => exact (Except.ok.injEq _ _ ▸ hok.symm) ▸ minImpl_length gi a n fill
  case max => exact (Except.ok.injEq _ _ ▸ hok.symm) ▸ maxImpl_length gi a n fill
  case first => exact (Except.ok.injEq _ _ ▸ hok.symm) ▸ firstImpl_length gi a n fill
  case last => exact (Except.ok.injEq _ _ ▸ hok.symm) ▸ lastImpl_length gi a n fill
  case mean => exact meanImpl_ok_length gi a n fill vals hok
  case var => exact varImpl_ok_length sqrtFn gi a n fill false vals hok
  case std => exact varImpl_ok_length sqrtFn gi a n fill true vals hok
  case all => exact allImpl_ok_length gi a n fill vals hok
  case any => exact anyImpl_ok_length gi a n fill vals hok
  case allnan => exact allImpl_ok_length gi (isnanInput a) n fill vals hok
  case anynan => exact anyImpl_ok_length gi (isnanInput a) n fill vals hok

/-! ### Inversion of the orchestration paths -/

theorem exceptMap_wrap_ok (shape : List ℕ) (dt' : Option DType)
    (e : Except AggError (List Val)) (r : Result)
    (hok : e.map (fun vals => Result.mk vals shape dt') = .ok r) :
    ∃ vals, e = .ok vals ∧ r = ⟨vals, shape, dt'⟩ := by
  cases e with
  | error err => simp [Except.map] at hok
  | ok vals =>
    refine ⟨vals, rfl, ?_⟩
    simpa [Except.map] using hok.symm

theorem aggFinish_ok (sqrtFn : Val → Val) (f : FuncSpec) (a : VInput) (fill : Val)
    (dt : Option DType) (flat : List ℕ) (n : ℕ) (shape : List ℕ) (r : Result)
    (hok : aggFinish sqrtFn f a fill dt flat n shape = .ok r) :
    r.vals.length = n ∧ r.shape = shape ∧ r.dtype = outDType f.kind dt := by
  unfold aggFinish at hok
  split at hok
  · split at hok
    · cases hok
    · cases a with
      | scalar v => cases hok
      | arr l =>
        obtain ⟨vals, he, hr⟩ := exceptMap_wrap_ok _ _ _ _ hok
        subst hr
        exact ⟨applyFunc_ok_length _ _ _ _ _ _ _ he, rfl, rfl⟩
  · obtain ⟨vals, he, hr⟩ := exceptMap_wrap_ok _ _ _ _ hok
    subst hr
    exact ⟨applyFunc_ok_length _ _ _ _ _ _ _ he, rfl, rfl⟩

theorem agg1D_ok (sqrtFn : Val → Val) (idx : List ℤ) (s0 : ℕ) (a : VInput) (f : FuncSpec)
    (size : Option SizeArg) (fill : Val) (dt : Option DType) (r : Result)
    (hok : agg1D sqrtFn idx s0 a f size fill dt = .ok r) :
    r.dtype = outDType f.kind dt
    ∧ ((∃ s, size = some (.scalar s) ∧ r.shape = [s] ∧ r.vals.length = s)
      ∨ (∃ mx, size = none ∧ npMax idx = some mx ∧ r.shape = [mx.toNat + 1]
          ∧ r.vals.length = mx.toNat + 1)) := by
  unfold agg1D at hok
  split at hok
  · cases hok
  · split at hok
    · cases hok
    · rcases size with _ | sa
      · cases hmx : npMax idx with
        | none => rw [hmx] at hok; cases hok
        | some mx =>
          rw [hmx] at hok
          obtain ⟨h1, h2, h3⟩ := aggFinish_ok _ _ _ _ _ _ _ _ _ hok
          exact ⟨h3, .inr ⟨mx, rfl, rfl, h2, h1⟩⟩
      · rcases sa with s | S
        · have hok2 : (if (idx.any fun i => decide ((s : ℤ) - 1 < i)) = true
              then (Except.error AggError.outOfBounds : Except AggError Result)
              else aggFinish sqrtFn f a fill dt (idx.map Int.toNat) s [s]) = .ok r := hok
          split at hok2
          · cases hok2
          · obtain ⟨h1, h2, h3⟩ := aggFinish_ok _ _ _ _ _ _ _ _ _ hok2
            exact ⟨h3, .inl ⟨s, rfl, h2, h1⟩⟩
        · have hok2 : (Except.error AggError.shapeMismatch : Except AggError Result) = .ok r := hok
          cases hok2

theorem agg2D_ok (sqrtFn : Val → Val) (k m : ℕ) (data : List ℤ) (a : VInput) (f : FuncSpec)
    (size : Option SizeArg) (fill : Val) (ord : Order) (dt : Option DType) (r : Result)
    (hok : agg2D sqrtFn k m data a f size fill ord dt = .ok r) :
    r.dtype = outDType f.kind dt
    ∧ ∃ sizes : List ℕ, r.shape = sizes ∧ r.vals.length = sizes.prod
      ∧ (∀ S, size = some (.seq S) → sizes = S) := by
  simp only [agg2D] at hok
  split at hok
  · cases hok
  · rcases size with _ | sa
    · split at hok
      · cases hok
      · split at hok
        · obtain ⟨h1, h2, h3⟩ := aggFinish_ok _ _ _ _ _ _ _ _ _ hok
          refine ⟨h3, _, h2, h1, ?_⟩
          intro S hS
          cases hS
        · cases hok
    · rcases sa with sc | S
      · cases hok
      · split at hok
        · cases hok
        · rename_i sizesE sizes heq
          have heq2 : (if S.length ≠ k
              then (Except.error AggError.shapeMismatch : Except AggError (List ℕ))
              else .ok S) = .ok sizes := heq
          split at heq2
          · cases heq2
          · injection heq2 with hse
            subst hse
            split at hok
            · obtain ⟨h1, h2, h3⟩ := aggFinish_ok _ _ _ _ _ _ _ _ _ hok
              exact ⟨h3, S, h2, h1, fun S2 hS2 => by
                injection hS2 with h
                injection h with h⟩
            · cases hok

/-! ### Claim C7 -/

/-- C7: the result of a successful `aggregate` call has length `S` (and shape
`[S]`) when a scalar size `S` is given; length `max(group_idx)+1` when the size
is omitted; and, for multi-key grouping with a size list `S`, shape `S` with
`prod(S)` flat elements. -/
theorem C7_output_size (sqrtFn : Val → Val) (l data : List ℤ) (k m : ℕ)
    (a : VInput) (f : FuncSpec) (s : ℕ) (S : List ℕ) (fill : Val) (ord : Order)
    (dt : Option DType) :
    (∀ r, aggregate sqrtFn ⟨[l.length], l⟩ a f (some (.scalar s)) fill ord dt = .ok r →
      r.vals.length = s ∧ r.shape = [s])
    ∧ (∀ r, aggregate sqrtFn ⟨[l.length], l⟩ a f none fill ord dt = .ok r →
      ∃ mx, npMax l = some mx ∧ r.vals.length = mx.toNat + 1 ∧ r.shape = [mx.toNat + 1])
    ∧ (∀ r, aggregate sqrtFn ⟨[k, m], data⟩ a f (some (.seq S)) fill ord dt = .ok r →
      r.vals.length = S.prod ∧ r.shape = S) := by
  refine ⟨?_, ?_, ?_⟩
  · intro r hok
    have h := agg1D_ok sqrtFn l l.length a f (some (.scalar s)) fill dt r hok
    rcases h.2 with ⟨s2, hs2, hsh, hlen2⟩ | ⟨mx, hnone, _, _, _⟩
    · injection hs2 with h2
      injection h2 with h2
      subst h2
      exact ⟨hlen2, hsh⟩
    · cases hnone
  · intro r hok
    have h := agg1D_ok sqrtFn l l.length a f none fill dt r hok
    rcases h.2 with ⟨s2, hs2, _, _⟩ | ⟨mx, _, hmx, hsh, hlen2⟩
    · cases hs2
    · exact ⟨mx, hmx, hlen2, hsh⟩
  · intro r hok
    obtain ⟨_, sizes, hsh, hlen2, hS⟩ := agg2D_ok sqrtFn k m data a f (some (.seq S)) fill ord dt r hok
    rw [hS S rfl] at hsh hlen2
    exact ⟨hlen2, hsh⟩

/-- C7 witness: summing two values into three slots yields a length-3 result. -/
theorem C7_output_size_witness :
    (Result.mk [.num 1, .num 2, .num 0] [3] none).vals.length = 3
    ∧ (Result.mk [.num 1, .num 2, .num 0] [3] none).shape = [3] := by
  apply (C7_output_size id [0, 1] [] 0 0 (.arr [.num 1, .num 2]) ⟨.sum, false⟩ 3 []
    (.num 0) .F none).1
  norm_num [aggregate, agg1D, aggFinish, applyFunc, sumImpl, bincountW, lenOk,
    noSepNan, List.replicate, Int.toNat, List.set, List.getD, outDType, Except.map,
    Val.add, Val.isNan]

/-! ### Claim C10 -/

/-- C10: for `func` in all/any/allnan/anynan the result dtype is boolean,
regardless of the explicitly requested dtype argument, which these reductions
ignore. -/
theorem C10_bool_dtype (sqrtFn : Val → Val) (gi : NDInt) (a : VInput) (f : FuncSpec)
    (sz : Option SizeArg) (fill : Val) (ord : Order) (dt : Option DType) (r : Result)
    (hf : f.kind = .all ∨ f.kind = .any ∨ f.kind = .allnan ∨ f.kind = .anynan)
    (hok : aggregate sqrtFn gi a f sz fill ord dt = .ok r) :
    r.dtype = some .bool := by
  have hdt : r.dtype = outDType f.kind dt := by
    unfold aggregate at hok
    rcases gi with ⟨shape, data⟩
    rcases shape with _ | ⟨s0, rest⟩
    · cases hok
    · rcases rest with _ | ⟨s1, rest2⟩
      · exact (agg1D_ok _ _ _ _ _ _ _ _ _ hok).1
      · rcases rest2 with _ | ⟨s2, rest3⟩
        · exact (agg2D_ok _ _ _ _ _ _ _ _ _ _ _ hok).1
        · cases hok
  rcases hf with h | h | h | h <;> rw [hdt, h] <;> rfl

/-- C10 witness: `any` with an explicitly requested integer dtype still returns
a boolean-typed result. -/
theorem C10_bool_dtype_witness :
    (Result.mk [.num 1] [1] (some .bool)).dtype = some .bool := by
  apply C10_bool_dtype id ⟨[1], [0]⟩ (.arr [.num 1]) ⟨.any, false⟩ none (.num 0) .F
    (some .int) _ (Or.inr (Or.inl rfl))
  norm_num [aggregate, agg1D, aggFinish, applyFunc, anyImpl, isBoolFill, truthy,
    posMask, compress, scatterConst, boolToVal, lenOk, npMax, noSepNan,
    List.replicate, List.set, Except.map, outDType, Int.toNat, List.zip]

/-! ### Claim C6 -/

theorem exceptMap_error (f : List Val → Result) (e : Except AggError (List Val))
    (err : AggError) (h : e.map f = .error err) : e = .error err := by
  cases e with
  | error e2 => simpa [Except.map] using h
  | ok vals => simp [Except.map] at h

/-- The reduction library itself only raises the scalar-input and fill-value
errors; index validation errors are raised earlier, by the orchestrator. -/
theorem applyFunc_error (sqrtFn : Val → Val) (k : FuncKind) (gi : List ℕ) (a : VInput)
    (n : ℕ) (fill : Val) (e : AggError)
    (h : applyFunc sqrtFn k gi a n fill = .error e) :
    e = .scalarInput ∨ e = .fillValueError := by
  cases k <;> simp only [applyFunc] at h
  case sum => cases h
  case prod => cases h
  case min => cases h
  case max => cases h
  case first => cases h
  case last => cases h
  case mean =>
    unfold meanImpl at h
    cases a with
    | scalar v => injection h with h2; exact .inl h2.symm
    | arr l => cases h
  case var =>
    unfold varImpl at h
    cases a with
    | scalar v => injection h with h2; exact .inl h2.symm
    | arr l => cases h
  case std =>
    unfold varImpl at h
    cases a with
    | scalar v => injection h with h2; exact .inl h2.symm
    | arr l => cases h
  case all =>
    unfold allImpl at h
    split at h
    · injection h with h2; exact .inr h2.symm
    · cases h
  case any =>
    unfold anyImpl at h
    split at h
    · injection h with h2; exact .inr h2.symm
    · cases h
  case allnan =>
    unfold allnanImpl allImpl at h
    split at h
    · injection h with h2; exact .inr h2.symm
    · cases h
  case anynan =>
    unfold anynanImpl anyImpl at h
    split at h
    · injection h with h2; exact .inr h2.symm
    · cases h

theorem aggFinish_error (sqrtFn : Val → Val) (f : FuncSpec) (a : VInput) (fill : Val)
    (dt : Option DType) (flat : List ℕ) (n : ℕ) (shape : List ℕ) (e : AggError)
    (h : aggFinish sqrtFn f a fill dt flat n shape = .error e) :
    e = .noNanVersion ∨ e = .scalarInput ∨ e = .fillValueError := by
  unfold aggFinish at h
  split at h
  · split at h
    · injection h with h2; exact .inl h2.symm
    · cases a with
      | scalar v => injection h with h2; exact .inr (.inl h2.symm)
      | arr l => exact .inr (applyFunc_error _ _ _ _ _ _ _ (exceptMap_error _ _ _ h))
  · exact .inr (applyFunc_error _ _ _ _ _ _ _ (exceptMap_error _ _ _ h))

/-- C6: a negative entry in a 1-D `group_idx` raises the invalid-index error; a
non-negative entry at or beyond a given scalar `size` raises the out-of-bounds
error; and when every entry is non-negative and below `size`, neither of those
two errors is raised. -/
theorem C6_index_errors (sqrtFn : Val → Val) (l : List ℤ) (a : VInput) (f : FuncSpec)
    (s : ℕ) (fill : Val) (ord : Order) (dt : Option DType)
    (hlen : lenOk a l.length = true) :
    ((∃ i ∈ l, i < 0) → ∀ sz, aggregate sqrtFn ⟨[l.length], l⟩ a f sz fill ord dt
        = .error .invalidIndex)
    ∧ ((∀ i ∈ l, 0 ≤ i) → (∃ i ∈ l, (s : ℤ) ≤ i) →
      aggregate sqrtFn ⟨[l.length], l⟩ a f (some (.scalar s)) fill ord dt
        = .error .outOfBounds)
    ∧ ((∀ i ∈ l, 0 ≤ i) → (∀ i ∈ l, i < (s : ℤ)) →
      aggregate sqrtFn ⟨[l.length], l⟩ a f (some (.scalar s)) fill ord dt
        ≠ .error .invalidIndex
      ∧ aggregate sqrtFn ⟨[l.length], l⟩ a f (some (.scalar s)) fill ord dt
        ≠ .error .outOfBounds) := by
  refine ⟨?_, ?_, ?_⟩
  · rintro ⟨i, hi, hineg⟩ sz
    show agg1D sqrtFn l l.length a f sz fill dt = .error .invalidIndex
    unfold agg1D
    rw [if_neg (by simp [hlen]), if_pos (by
      simp only [List.any_eq_true, decide_eq_true_eq]
      exact ⟨i, hi, hineg⟩)]
  · intro hnn ⟨i, hi, his⟩
    show agg1D sqrtFn l l.length a f (some (.scalar s)) fill dt = .error .outOfBounds
    unfold agg1D
    rw [if_neg (by simp [hlen]), if_neg (by
      simp only [List.any_eq_true, decide_eq_true_eq, not_exists]
      rintro x ⟨hx, hcon⟩
      exact absurd (hnn x hx) (by omega))]
    show (if (l.any fun i => decide ((s : ℤ) - 1 < i)) = true
        then (Except.error AggError.outOfBounds : Except AggError Result)
        else aggFinish sqrtFn f a fill dt (l.map Int.toNat) s [s]) = .error .outOfBounds
    rw [if_pos (by
      simp only [List.any_eq_true, decide_eq_true_eq]
      exact ⟨i, hi, by omega⟩)]
  · intro hnn hlt
    have hred : aggregate sqrtFn ⟨[l.length], l⟩ a f (some (.scalar s)) fill ord dt
        = aggFinish sqrtFn f a fill dt (l.map Int.toNat) s [s] := by
      show agg1D sqrtFn l l.length a f (some (.scalar s)) fill dt = _
      unfold agg1D
      rw [if_neg (by simp [hlen]), if_neg (by
        simp only [List.any_eq_true, decide_eq_true_eq, not_exists]
        rintro x ⟨hx, hcon⟩
        exact absurd (hnn x hx) (by omega))]
      show (if (l.any fun i => decide ((s : ℤ) - 1 < i)) = true
          then (Except.error AggError.outOfBounds : Except AggError Result)
          else aggFinish sqrtFn f a fill dt (l.map Int.toNat) s [s]) = _
      rw [if_neg (by
        simp only [List.any_eq_true, decide_eq_true_eq, not_exists]
        rintro x ⟨hx, hcon⟩
        exact absurd (hlt x hx) (by omega))]
    rw [hred]
    constructor
    · intro hcon
      rcases aggFinish_error _ _ _ _ _ _ _ _ _ hcon with h | h | h <;> cases h
    · intro hcon
      rcases aggFinish_error _ _ _ _ _ _ _ _ _ hcon with h | h | h <;> cases h

/-- C6 witness: `[-1,0]` raises invalid-index; `[0,5]` with size 3 raises
out-of-bounds; `[0,2]` with size 3 raises neither. -/
theorem C6_index_errors_witness :
    aggregate id ⟨[2], [-1, 0]⟩ (.arr [.num 1, .num 2]) ⟨.sum, false⟩ none (.num 0) .F none
      = .error .invalidIndex
    ∧ aggregate id ⟨[2], [0, 5]⟩ (.arr [.num 1, .num 2]) ⟨.sum, false⟩ (some (.scalar 3))
      (.num 0) .F none = .error .outOfBounds
    ∧ aggregate id ⟨[2], [0, 2]⟩ (.arr [.num 1, .num 2]) ⟨.sum, false⟩ (some (.scalar 3))
      (.num 0) .F none ≠ .error .invalidIndex := by
  refine ⟨?_, ?_, ?_⟩
  · exact (C6_index_errors id [-1, 0] (.arr [.num 1, .num 2]) ⟨.sum, false⟩ 3 (.num 0) .F none
      (by decide)).1 ⟨-1, by decide, by decide⟩ none
  · exact (C6_index_errors id [0, 5] (.arr [.num 1, .num 2]) ⟨.sum, false⟩ 3 (.num 0) .F none
      (by decide)).2.1 (by decide) ⟨5, by decide, by decide⟩
  · exact ((C6_index_errors id [0, 2] (.arr [.num 1, .num 2]) ⟨.sum, false⟩ 3 (.num 0) .F none
      (by decide)).2.2 (by decide) (by decide)).1

/-! ### Claim C4 -/

theorem le_foldl_max (xs : List ℤ) : ∀ acc : ℤ, acc ≤ xs.foldl max acc := by
  induction xs with
  | nil => intro acc; exact le_refl acc
  | cons y ys ih =>
    intro acc
    rw [List.foldl_cons]
    exact le_trans (le_max_left acc y) (ih (max acc y))

theorem mem_le_foldl_max (xs : List ℤ) : ∀ acc : ℤ, ∀ i ∈ xs, i ≤ xs.foldl max acc := by
  induction xs with
  | nil => intro acc i hi; cases hi
  | cons y ys ih =>
    intro acc i hi
    rw [List.foldl_cons]
    rcases List.mem_cons.mp hi with hiy | hiys
    · subst hiy
      exact le_trans (le_max_right acc i) (le_foldl_max ys (max acc i))
    · exact ih (max acc y) i hiys

theorem npMax_le (l : List ℤ) (mx : ℤ) (h : npMax l = some mx) : ∀ i ∈ l, i ≤ mx := by
  cases l with
  | nil => cases h
  | cons x xs =>
    injection h with h2
    subst h2
    intro i hi
    rcases List.mem_cons.mp hi with hix | hixs
    · subst hix
      exact le_foldl_max xs i
    · exact mem_le_foldl_max xs x i hixs

theorem npMax_nonneg (l : List ℤ) (mx : ℤ) (h : npMax l = some mx)
    (hnn : ∀ i ∈ l, 0 ≤ i) : 0 ≤ mx := by
  cases l with
  | nil => cases h
  | cons x xs =>
    injection h with h2
    subst h2
    exact le_trans (hnn x (List.mem_cons_self x xs)) (le_foldl_max xs x)

/-- Mapping `Int.toNat` over the group index commutes with stripping the NaN
pairs, since the NaN mask only inspects the value component. -/
theorem filtered_pairs (l : List ℤ) (la : List Val) :
    ((l.map Int.toNat).zip la).filter (fun p => ! p.2.isNan)
      = ((l.zip la).filter (fun p => ! p.2.isNan)).map (fun p => (p.1.toNat, p.2)) := by
  rw [List.zip_map_left, List.filter_map,
    List.filter_congr (fun (p : ℤ × Val) (hp : p ∈ l.zip la) => rfl)]
  rfl

/-- C4: a NaN-aware variant strips the NaN-valued pairs before running the base
reduction, while the output size is still inferred from the full group index:
the call equals a plain call on the filtered pairs with the size forced to
`max(group_idx)+1` of the unfiltered index.  In particular `nansum` over
`group_idx=[0,1]`, `values=[nan,5]` returns `[0, 5]`: the all-NaN group keeps
its slot and holds the fill value 0 rather than NaN. -/
theorem C4_nan_variant (sqrtFn : Val → Val) (l : List ℤ) (la : List Val) (k : FuncKind)
    (fill : Val) (ord : Order) (dt : Option DType) (mx : ℤ)
    (hlen : la.length = l.length) (hnn : ∀ i ∈ l, 0 ≤ i) (hm : npMax l = some mx)
    (hk : k ∉ noSepNan) :
    aggregate sqrtFn ⟨[l.length], l⟩ (.arr la) ⟨k, true⟩ none fill ord dt
      = aggregate sqrtFn
          ⟨[(((l.zip la).filter (fun p => ! p.2.isNan)).map Prod.fst).length],
            ((l.zip la).filter (fun p => ! p.2.isNan)).map Prod.fst⟩
          (.arr (((l.zip la).filter (fun p => ! p.2.isNan)).map Prod.snd))
          ⟨k, false⟩ (some (.scalar (mx.toNat + 1))) fill ord dt
    ∧ aggregate id ⟨[2], [0, 1]⟩ (.arr [.nan, .num 5]) ⟨.sum, true⟩ none (.num 0) .F none
      = .ok ⟨[.num 0, .num 5], [2], none⟩ := by
  constructor
  · have hmx0 : 0 ≤ mx := npMax_nonneg l mx hm hnn
    have hLHS : aggregate sqrtFn ⟨[l.length], l⟩ (.arr la) ⟨k, true⟩ none fill ord dt
        = (applyFunc sqrtFn k
            ((((l.map Int.toNat).zip la).filter (fun p => ! p.2.isNan)).map Prod.fst)
            (.arr ((((l.map Int.toNat).zip la).filter (fun p => ! p.2.isNan)).map Prod.snd))
            (mx.toNat + 1) fill).map
            (fun vals => ⟨vals, [mx.toNat + 1], outDType k dt⟩) := by
      show agg1D sqrtFn l l.length (.arr la) ⟨k, true⟩ none fill dt = _
      unfold agg1D
      rw [if_neg (by simp [lenOk, hlen]), if_neg (by
        simp only [List.any_eq_true, decide_eq_true_eq, not_exists]
        rintro x ⟨hx, hcon⟩
        exact absurd (hnn x hx) (by omega)), hm]
      show aggFinish sqrtFn ⟨k, true⟩ (.arr la) fill dt (l.map Int.toNat)
        (mx.toNat + 1) [mx.toNat + 1] = _
      unfold aggFinish
      rw [if_pos rfl, if_neg hk]
    have hRHS : aggregate sqrtFn
          ⟨[(((l.zip la).filter (fun p => ! p.2.isNan)).map Prod.fst).length],
            ((l.zip la).filter (fun p => ! p.2.isNan)).map Prod.fst⟩
          (.arr (((l.zip la).filter (fun p => ! p.2.isNan)).map Prod.snd))
          ⟨k, false⟩ (some (.scalar (mx.toNat + 1))) fill ord dt
        = (applyFunc sqrtFn k
            ((((l.zip la).filter (fun p => ! p.2.isNan)).map Prod.fst).map Int.toNat)
            (.arr (((l.zip la).filter (fun p => ! p.2.isNan)).map Prod.snd))
            (mx.toNat + 1) fill).map
            (fun vals => ⟨vals, [mx.toNat + 1], outDType k dt⟩) := by
      show agg1D sqrtFn (((l.zip la).filter (fun p => ! p.2.isNan)).map Prod.fst)
        (((l.zip la).filter (fun p => ! p.2.isNan)).map Prod.fst).length
        (.arr (((l.zip la).filter (fun p => ! p.2.isNan)).map Prod.snd))
        ⟨k, false⟩ (some (.scalar (mx.toNat + 1))) fill dt = _
      have hmemfst : ∀ x ∈ ((l.zip la).filter (fun p => ! p.2.isNan)).map Prod.fst, x ∈ l := by
        intro x hx
        obtain ⟨p, hp, hpx⟩ := List.mem_map.mp hx
        subst hpx
        exact (List.of_mem_zip (List.mem_of_mem_filter hp)).1
      unfold agg1D
      rw [if_neg (by simp [lenOk]), if_neg (by
        simp only [List.any_eq_true, decide_eq_true_eq, not_exists]
        rintro x ⟨hx, hcon⟩
        exact absurd (hnn x (hmemfst x hx)) (by omega))]
      show (if ((((l.zip la).filter (fun p => ! p.2.isNan)).map Prod.fst).any
            fun i => decide (((mx.toNat + 1 : ℕ) : ℤ) - 1 < i)) = true
          then (Except.error AggError.outOfBounds : Except AggError Result)
          else _) = _
      rw [if_neg (by
        simp only [List.any_eq_true, decide_eq_true_eq, not_exists]
        rintro x ⟨hx, hcon⟩
        have := npMax_le l mx hm x (hmemfst x hx)
        omega)]
      unfold aggFinish
      rw [if_neg (by simp)]
    rw [hLHS, hRHS, filtered_pairs, List.map_map, List.map_map, List.map_map]
    rfl
  · norm_num [aggregate, agg1D, aggFinish, applyFunc, sumImpl, bincountW, npMax,
      Val.add, Val.isNan, noSepNan, lenOk, List.replicate, Int.toNat, List.set,
      List.getD, outDType, Except.map, List.zip]
    rintro (h | h | h | h | h | h) <;> cases h

/-- C4 witness: the general nan-variant equivalence holds at the concrete
`nansum` scenario. -/
theorem C4_nan_variant_witness :
    aggregate id ⟨[2], [0, 1]⟩ (.arr [.nan, .num 5]) ⟨.sum, true⟩ none (.num 0) .F none
      = aggregate id
          ⟨[((([(0 : ℤ), 1].zip [Val.nan, .num 5]).filter
              (fun p => ! p.2.isNan)).map Prod.fst).length],
            (([(0 : ℤ), 1].zip [Val.nan, .num 5]).filter (fun p => ! p.2.isNan)).map Prod.fst⟩
          (.arr ((([(0 : ℤ), 1].zip [Val.nan, .num 5]).filter
              (fun p => ! p.2.isNan)).map Prod.snd))
          ⟨.sum, false⟩ (some (.scalar 2)) (.num 0) .F none := by
  have h := (C4_nan_variant id [0, 1] [Val.nan, .num 5] .sum (.num 0) .F none 1 rfl
    (by decide) rfl (by decide)).1
  exact h

/-! ### Claim C5, amended part -/

theorem ufuncAt_replicate (op : Val → Val → Val) (gi : List ℕ) (v : Val) :
    ∀ ret : List Val, ufuncAt op ret gi (List.replicate gi.length v)
      = ufuncAtScalar op ret gi v := by
  induction gi with
  | nil => intro ret; rfl
  | cons g rest ih =>
    intro ret
    unfold ufuncAt ufuncAtScalar
    simp only [List.length_cons, List.replicate_succ, List.zip_cons_cons, List.foldl_cons]
    exact ih _

theorem scatter_replicate {α : Type} (gi : List ℕ) (v : α) :
    ∀ ret : List α, scatter ret gi (List.replicate gi.length v) = scatterConst ret gi v := by
  induction gi with
  | nil => intro ret; rfl
  | cons g rest ih =>
    intro ret
    unfold scatter scatterConst
    simp only [List.length_cons, List.replicate_succ, List.zip_cons_cons, List.foldl_cons]
    exact ih _

theorem groupVals_replicate (gi : List ℕ) (v : Val) (g : ℕ) :
    groupVals gi (List.replicate gi.length v) g = List.replicate (gi.count g) v := by
  unfold groupVals
  induction gi with
  | nil => rfl
  | cons i rest ih =>
    simp only [List.length_cons, List.replicate_succ, List.zip_cons_cons, List.filter_cons]
    by_cases hig : i = g
    · subst hig
      rw [if_pos (by simp), List.map_cons, ih, List.count_cons_self, List.replicate_succ]
    · rw [if_neg (by simp [hig]), ih, List.count_cons_of_ne (fun hc => hig hc.symm)]

theorem addList_replicate (c : ℕ) (a q : ℚ) :
    addList (.num a) (List.replicate c (.num q)) = .num (a + c * q) := by
  induction c generalizing a with
  | zero => simp [addList]
  | succ c ih =>
    rw [List.replicate_succ, addList_cons]
    show addList (.num (a + q)) _ = _
    rw [ih (a + q)]
    congr 1
    push_cast
    ring

theorem sumImpl_scalar_broadcast (gi : List ℕ) (n : ℕ) (fill v : Val)
    (hv : v.isNan = false) :
    sumImpl gi (.scalar v) n fill = sumImpl gi (.arr (List.replicate gi.length v)) n fill := by
  cases v with
  | nan => cases hv
  | num q =>
    have h : (if Val.num q ≠ Val.num 1
          then ((bincount gi n).map (fun c : ℕ => Val.num (c : ℚ))).map (fun x => x.mul (.num q))
          else (bincount gi n).map (fun c : ℕ => Val.num (c : ℚ)))
        = bincountW gi (List.replicate gi.length (.num q)) n := by
      apply List.ext_getElem?
      intro g
      by_cases hg : g < n
      · have hcnt := bincount_get gi n g hg
        have hbw := bincountW_get gi (List.replicate gi.length (.num q)) n g hg
        rw [hbw, groupVals_replicate, addList_replicate]
        split
        · rw [List.getElem?_map, List.getElem?_map, hcnt]
          simp only [Option.map_some', Val.mul, Option.some.injEq, Val.num.injEq]
          norm_num
        · rename_i hq1
          have h2 : Val.num q = Val.num 1 := not_not.mp hq1
          rw [Val.num.injEq] at h2
          subst h2
          rw [List.getElem?_map, hcnt]
          simp only [Option.map_some', Option.some.injEq, Val.num.injEq]
          norm_num
      · have h1 : n ≤ g := Nat.le_of_not_lt hg
        have hlhs : ∀ X : List Val, X.length = n → X[g]? = none := by
          intro X hX
          exact List.getElem?_eq_none (by rw [hX]; exact h1)
        rw [hlhs _ (by split <;> simp [bincount_length]),
          hlhs _ (bincountW_length gi _ n)]
    unfold sumImpl
    show (if fill ≠ Val.num 0 then fill_untouched gi (if Val.num q ≠ Val.num 1
        then ((bincount gi n).map (fun c : ℕ => Val.num (c : ℚ))).map (fun x => x.mul (.num q))
        else (bincount gi n).map (fun c : ℕ => Val.num (c : ℚ))) fill
      else (if Val.num q ≠ Val.num 1
        then ((bincount gi n).map (fun c : ℕ => Val.num (c : ℚ))).map (fun x => x.mul (.num q))
        else (bincount gi n).map (fun c : ℕ => Val.num (c : ℚ)))) = _
    rw [h]

theorem prodImpl_scalar_broadcast (gi : List ℕ) (n : ℕ) (fill v : Val) :
    prodImpl gi (.scalar v) n fill = prodImpl gi (.arr (List.replicate gi.length v)) n fill := by
  unfold prodImpl
  exact (ufuncAt_replicate Val.mul gi v _).symm

theorem minImpl_scalar_broadcast (gi : List ℕ) (n : ℕ) (fill v : Val) :
    minImpl gi (.scalar v) n fill = minImpl gi (.arr (List.replicate gi.length v)) n fill := by
  unfold minImpl
  exact (ufuncAt_replicate Val.vmin gi v _).symm

theorem maxImpl_scalar_broadcast (gi : List ℕ) (n : ℕ) (fill v : Val) :
    maxImpl gi (.scalar v) n fill = maxImpl gi (.arr (List.replicate gi.length v)) n fill := by
  unfold maxImpl
  exact (ufuncAt_replicate Val.vmax gi v _).symm

theorem lastImpl_scalar_broadcast (gi : List ℕ) (n : ℕ) (fill v : Val) :
    lastImpl gi (.scalar v) n fill = lastImpl gi (.arr (List.replicate gi.length v)) n fill := by
  unfold lastImpl
  exact (scatter_replicate gi v _).symm

theorem firstImpl_scalar_broadcast (gi : List ℕ) (n : ℕ) (fill v : Val) :
    firstImpl gi (.scalar v) n fill = firstImpl gi (.arr (List.replicate gi.length v)) n fill := by
  unfold firstImpl
  show scatterConst _ gi.reverse v = scatter _ gi.reverse (List.replicate gi.length v).reverse
  rw [List.reverse_replicate, show gi.length = gi.reverse.length from (List.length_reverse gi).symm,
    scatter_replicate]

theorem agg1D_a_congr (sqrtFn : Val → Val) (l : List ℤ) (s0 : ℕ) (f : FuncSpec)
    (sz : Option SizeArg) (fill : Val) (dt : Option DType) (a1 a2 : VInput)
    (hlen1 : lenOk a1 s0 = true) (hlen2 : lenOk a2 s0 = true)
    (hnanf : f.nanVariant = false)
    (happ : ∀ n, applyFunc sqrtFn f.kind (l.map Int.toNat) a1 n fill
      = applyFunc sqrtFn f.kind (l.map Int.toNat) a2 n fill) :
    agg1D sqrtFn l s0 a1 f sz fill dt = agg1D sqrtFn l s0 a2 f sz fill dt := by
  have hfin : ∀ n shape, aggFinish sqrtFn f a1 fill dt (l.map Int.toNat) n shape
      = aggFinish sqrtFn f a2 fill dt (l.map Int.toNat) n shape := by
    intro n shape
    unfold aggFinish
    rw [if_neg (by simp [hnanf]), if_neg (by simp [hnanf]), happ]
  unfold agg1D
  rw [hlen1, hlen2]
  simp only [eq_self_iff_true, not_true, if_false]
  by_cases hneg : (l.any fun i => decide (i < 0)) = true
  · rw [if_pos hneg, if_pos hneg]
  · rw [if_neg hneg, if_neg hneg]
    rcases sz with _ | sa
    · cases hmx : npMax l with
      | none => rfl
      | some mx => exact hfin _ _
    · rcases sa with s | S
      · show (if (l.any fun i => decide ((s : ℤ) - 1 < i)) = true
            then (Except.error AggError.outOfBounds : Except AggError Result)
            else aggFinish sqrtFn f a1 fill dt (l.map Int.toNat) s [s])
          = (if (l.any fun i => decide ((s : ℤ) - 1 < i)) = true
            then (Except.error AggError.outOfBounds : Except AggError Result)
            else aggFinish sqrtFn f a2 fill dt (l.map Int.toNat) s [s])
        by_cases hout : (l.any fun i => decide ((s : ℤ) - 1 < i)) = true
        · rw [if_pos hout, if_pos hout]
        · rw [if_neg hout, if_neg hout]
          exact hfin _ _
      · rfl

/-- C5, amended: for the reduction kinds sum, prod, min, max, first and last
(plain variants) a non-NaN scalar `values` is treated as broadcast to the
length of `group_idx`: the call returns exactly what the replicated sequence
returns.  (mean, var and std reject scalar values, as the counterexample
records.) -/
theorem C5_scalar_broadcast (sqrtFn : Val → Val) (l : List ℤ) (v : Val) (k : FuncKind)
    (sz : Option SizeArg) (fill : Val) (ord : Order) (dt : Option DType)
    (hk : k = .sum ∨ k = .prod ∨ k = .min ∨ k = .max ∨ k = .first ∨ k = .last)
    (hv : v.isNan = false) :
    aggregate sqrtFn ⟨[l.length], l⟩ (.scalar v) ⟨k, false⟩ sz fill ord dt
      = aggregate sqrtFn ⟨[l.length], l⟩ (.arr (List.replicate l.length v)) ⟨k, false⟩
        sz fill ord dt := by
  show agg1D sqrtFn l l.length (.scalar v) ⟨k, false⟩ sz fill dt
    = agg1D sqrtFn l l.length (.arr (List.replicate l.length v)) ⟨k, false⟩ sz fill dt
  apply agg1D_a_congr sqrtFn l l.length ⟨k, false⟩ sz fill dt (.scalar v)
    (.arr (List.replicate l.length v)) rfl (by simp [lenOk]) rfl
  intro n
  have hlm : List.replicate l.length v = List.replicate (l.map Int.toNat).length v := by
    rw [List.length_map]
  rw [hlm]
  rcases hk with h | h | h | h | h | h <;> subst h <;> simp only [applyFunc]
  · exact congrArg Except.ok (sumImpl_scalar_broadcast (l.map Int.toNat) n fill v hv)
  · exact congrArg Except.ok (prodImpl_scalar_broadcast (l.map Int.toNat) n fill v)
  · exact congrArg Except.ok (minImpl_scalar_broadcast (l.map Int.toNat) n fill v)
  · exact congrArg Except.ok (maxImpl_scalar_broadcast (l.map Int.toNat) n fill v)
  · exact congrArg Except.ok (firstImpl_scalar_broadcast (l.map Int.toNat) n fill v)
  · exact congrArg Except.ok (lastImpl_scalar_broadcast (l.map Int.toNat) n fill v)

/-- C5 witness: the amended broadcast equivalence at a concrete input. -/
theorem C5_scalar_broadcast_witness :
    aggregate id ⟨[2], [0, 1]⟩ (.scalar (.num 3)) ⟨.sum, false⟩ none (.num 0) .F none
      = aggregate id ⟨[2], [0, 1]⟩ (.arr (List.replicate 2 (.num 3))) ⟨.sum, false⟩
        none (.num 0) .F none :=
  C5_scalar_broadcast id [0, 1] (.num 3) .sum none (.num 0) .F none (.inl rfl) rfl

/-! ### Claim C8, amended part -/

/-- The value numpy's `_var`/`_std` computes for one slot with `fill_value = 0`:
two-pass mean then averaged squared deviations (rooted for std). -/
def varSlot (sqrtFn : Val → Val) (sq : Bool) (vals : List Val) (c : ℕ) : Val :=
  if c = 0 then .num 0
  else
    let μ := (addList (.num 0) vals).divNat c
    let w := (addList (.num 0) (vals.map (fun v => (v.sub μ).mul (v.sub μ)))).divNat c
    if sq then sqrtFn w else w

/-- The value the weave kernel computes for one slot with `fill_value = 0` and
`ddof = 0`: single-pass sum and sum of squares, `(Q - S*S/c) / c`. -/
def weaveSlot (sqrtFn : Val → Val) (sq : Bool) (vals : List Val) (c : ℕ) : Val :=
  if c = 0 then .num 0
  else
    let S := addList (.num 0) vals
    let Q := addList (.num 0) (vals.map (fun v => v.mul v))
    let w := (Q.sub ((S.mul S).divNat c)).divNat c
    if sq then sqrtFn w else w

theorem sq_dev_sum (qs : List ℚ) : ∀ μ : ℚ,
    (qs.map (fun x => (x - μ) * (x - μ))).sum
      = (qs.map (fun x => x * x)).sum - 2 * μ * qs.sum + qs.length * μ ^ 2 := by
  induction qs with
  | nil => intro μ; simp
  | cons x xs ih =>
    intro μ
    simp only [List.map_cons, List.sum_cons, ih μ, List.length_cons]
    push_cast
    ring

/-- The classical one-pass/two-pass variance identity over exact arithmetic. -/
theorem var_identity (qs : List ℚ) (hc : qs.length ≠ 0) :
    (qs.map (fun x => (x - qs.sum / qs.length) * (x - qs.sum / qs.length))).sum / qs.length
      = ((qs.map (fun x => x * x)).sum - qs.sum * qs.sum / qs.length) / qs.length := by
  rw [sq_dev_sum qs (qs.sum / qs.length)]
  have hc2 : (qs.length : ℚ) ≠ 0 := Nat.cast_ne_zero.mpr hc
  field_simp
  ring

theorem map_toQ_of_noNan (vals : List Val) (F : Val → Val) (FQ : ℚ → ℚ)
    (hF : ∀ q : ℚ, F (.num q) = .num (FQ q)) (h : ∀ v ∈ vals, v.isNan = false) :
    (vals.map F).map Val.toQ = (vals.map Val.toQ).map FQ := by
  induction vals with
  | nil => rfl
  | cons v rest ih =>
    cases v with
    | nan => simpa [Val.isNan] using h .nan (List.mem_cons_self _ _)
    | num q =>
      simp only [List.map_cons, hF q]
      rw [ih (fun w hw => h w (List.mem_cons_of_mem _ hw))]
      rfl

theorem noNan_map (vals : List Val) (F : Val → Val) (FQ : ℚ → ℚ)
    (hF : ∀ q : ℚ, F (.num q) = .num (FQ q)) (h : ∀ v ∈ vals, v.isNan = false) :
    ∀ w ∈ vals.map F, w.isNan = false := by
  intro w hw
  obtain ⟨v, hv, hvw⟩ := List.mem_map.mp hw
  cases v with
  | nan => simpa [Val.isNan] using h .nan hv
  | num q =>
    rw [← hvw, hF q]
    rfl

theorem hasNan_map_of_nan_all (vals : List Val) (F : Val → Val)
    (hF : ∀ v, (F v).isNan = v.isNan) (hvals : ∃ v ∈ vals, v.isNan = true) :
    ∃ w ∈ vals.map F, w.isNan = true := by
  obtain ⟨v, hv, hvn⟩ := hvals
  exact ⟨F v, List.mem_map_of_mem F hv, by rw [hF v, hvn]⟩

theorem groupVals_length (gi : List ℕ) (l : List Val) (g : ℕ) (hlen : gi.length = l.length) :
    (groupVals gi l g).length = gi.count g := by
  unfold groupVals
  induction gi generalizing l with
  | nil => rfl
  | cons i rest ih =>
    cases l with
    | nil => simp at hlen
    | cons v lv =>
      have hlen2 : rest.length = lv.length := by simpa using hlen
      simp only [List.zip_cons_cons, List.filter_cons]
      by_cases hig : i = g
      · subst hig
        rw [if_pos (by simp), List.map_cons, List.length_cons, ih lv hlen2,
          List.count_cons_self]
      · rw [if_neg (by simp [hig]), ih lv hlen2,
          List.count_cons_of_ne (fun hc => hig hc.symm)]

theorem divNat_num (a : ℚ) (c : ℕ) (hc : ¬ c = 0) : (Val.num a).divNat c = .num (a / c) := by
  show (if c = 0 then Val.nan else Val.num (a / (c : ℚ))) = _
  rw [if_neg hc]

theorem mul_num (a b : ℚ) : (Val.num a).mul (.num b) = .num (a * b) := rfl

theorem sub_num (a b : ℚ) : (Val.num a).sub (.num b) = .num (a - b) := rfl

/-- The two per-slot formulas agree on every group under exact arithmetic, with
NaN propagating identically through both. -/
theorem slot_eq (sqrtFn : Val → Val) (sq : Bool) (vals : List Val) (c : ℕ)
    (hc : c = vals.length) :
    varSlot sqrtFn sq vals c = weaveSlot sqrtFn sq vals c := by
  subst hc
  unfold varSlot weaveSlot
  by_cases hc0 : vals.length = 0
  · rw [if_pos hc0, if_pos hc0]
  · rw [if_neg hc0, if_neg hc0]
    have hw : (addList (.num 0) (vals.map (fun v =>
          ((v.sub ((addList (.num 0) vals).divNat vals.length)).mul
            (v.sub ((addList (.num 0) vals).divNat vals.length)))))).divNat vals.length
        = ((addList (.num 0) (vals.map (fun v => v.mul v))).sub
            (((addList (.num 0) vals).mul (addList (.num 0) vals)).divNat vals.length)).divNat
            vals.length := by
      by_cases hnan : ∀ v ∈ vals, v.isNan = false
      · have hS : addList (.num 0) vals = .num (0 + (vals.map Val.toQ).sum) :=
          addList_num vals 0 hnan
        have hql : (vals.map Val.toQ).length = vals.length := List.length_map vals Val.toQ
        set qs := vals.map Val.toQ with hqs
        have hμ : (addList (.num 0) vals).divNat vals.length
            = .num ((0 + qs.sum) / (vals.length : ℚ)) := by
          rw [hS, divNat_num _ _ hc0]
        have hFdev : ∀ q : ℚ, ((Val.num q).sub ((addList (.num 0) vals).divNat
              vals.length)).mul ((Val.num q).sub ((addList (.num 0) vals).divNat vals.length))
            = .num ((q - (0 + qs.sum) / (vals.length : ℚ))
              * (q - (0 + qs.sum) / (vals.length : ℚ))) := by
          intro q
          rw [hμ, sub_num, mul_num]
        have hdevsum : addList (.num 0) (vals.map (fun v =>
              ((v.sub ((addList (.num 0) vals).divNat vals.length)).mul
                (v.sub ((addList (.num 0) vals).divNat vals.length)))))
            = .num (0 + (qs.map (fun x => (x - (0 + qs.sum) / (vals.length : ℚ))
                * (x - (0 + qs.sum) / (vals.length : ℚ)))).sum) := by
          rw [addList_num _ 0 (noNan_map vals _ (fun x => (x - (0 + qs.sum) / (vals.length : ℚ))
              * (x - (0 + qs.sum) / (vals.length : ℚ))) hFdev hnan),
            map_toQ_of_noNan vals _ _ hFdev hnan]
        have hQ : addList (.num 0) (vals.map (fun v => v.mul v))
            = .num (0 + (qs.map (fun x => x * x)).sum) := by
          rw [addList_num _ 0 (noNan_map vals _ (fun x => x * x) (fun q => rfl) hnan),
            map_toQ_of_noNan vals _ (fun x => x * x) (fun q => rfl) hnan]
        rw [hdevsum, hQ, hS, mul_num, divNat_num _ _ hc0, divNat_num _ _ hc0, sub_num,
          divNat_num _ _ hc0]
        congr 1
        rw [← hql] at hc0 ⊢
        have hvi := var_identity qs hc0
        simp only [zero_add]
        exact hvi
      · have hvals : ∃ v ∈ vals, v.isNan = true := by
          push_neg at hnan
          obtain ⟨v, hv, hvn⟩ := hnan
          exact ⟨v, hv, by simpa using hvn⟩
        have hS : addList (.num 0) vals = .nan := addList_hasNan vals _ hvals
        have hne : vals ≠ [] := by
          intro hcon
          rw [hcon] at hc0
          exact hc0 rfl
        have hdev : ∃ w ∈ vals.map (fun v =>
              ((v.sub ((addList (.num 0) vals).divNat vals.length)).mul
                (v.sub ((addList (.num 0) vals).divNat vals.length)))), w.isNan = true := by
          obtain ⟨v0, hv0⟩ := List.exists_mem_of_ne_nil vals hne
          refine ⟨_, List.mem_map_of_mem _ hv0, ?_⟩
          rw [hS]
          cases v0 <;> rfl
        have hsq : ∃ w ∈ vals.map (fun v => v.mul v), w.isNan = true :=
          hasNan_map_of_nan_all vals _ (fun v => by cases v <;> rfl) hvals
        rw [addList_hasNan _ _ hdev, addList_hasNan _ _ hsq, hS]
        rfl
    simp only [hw]

theorem groupVals_dev (gi : List ℕ) (l : List Val) (mf : ℕ → Val) (g : ℕ)
    (hlen : gi.length = l.length) :
    groupVals gi ((l.zip (gi.map mf)).map (fun p => (p.1.sub p.2).mul (p.1.sub p.2))) g
      = (groupVals gi l g).map (fun v => (v.sub (mf g)).mul (v.sub (mf g))) := by
  unfold groupVals
  induction gi generalizing l with
  | nil =>
    cases l with
    | nil => rfl
    | cons v lv => simp at hlen
  | cons i rest ih =>
    cases l with
    | nil => simp at hlen
    | cons v lv =>
      have hlen2 : rest.length = lv.length := by simpa using hlen
      simp only [List.map_cons, List.zip_cons_cons, List.filter_cons]
      by_cases hig : i = g
      · subst hig
        rw [if_pos (by simp), if_pos (by simp)]
        simp only [List.map_cons]
        rw [ih lv hlen2]
      · rw [if_neg (by simp [hig]), if_neg (by simp [hig])]
        exact ih lv hlen2

theorem accumC_pairs_get (pairs : List (ℕ × Val)) (g : ℕ) (ret : List ℕ)
    (hg : g < ret.length) :
    (pairs.foldl (fun c p => c.set p.1 (c.getD p.1 0 + 1)) ret)[g]?
      = some (ret.getD g 0 + (pairs.map Prod.fst).count g) := by
  have h := accumC_get (pairs.map Prod.fst) g ret hg
  rw [List.foldl_map] at h
  exact h

theorem weave_fold_split (pairs : List (ℕ × Val)) :
    ∀ (r m : List Val) (c : List ℕ),
      pairs.foldl (fun (st : List Val × List Val × List ℕ) p =>
        (st.1.set p.1 ((st.1.getD p.1 .nan).add (p.2.mul p.2)),
         st.2.1.set p.1 ((st.2.1.getD p.1 .nan).add p.2),
         st.2.2.set p.1 (st.2.2.getD p.1 0 + 1))) (r, m, c)
      = (pairs.foldl (fun r p => r.set p.1 ((r.getD p.1 .nan).add (p.2.mul p.2))) r,
         pairs.foldl (fun m p => m.set p.1 ((m.getD p.1 .nan).add p.2)) m,
         pairs.foldl (fun c p => c.set p.1 (c.getD p.1 0 + 1)) c) := by
  induction pairs with
  | nil => intro r m c; rfl
  | cons p rest ih =>
    intro r m c
    simp only [List.foldl_cons]
    exact ih _ _ _

theorem weaveVar_length (sqrtFn : Val → Val) (gi : List ℕ) (l : List Val) (n : ℕ)
    (fill : Val) (ddof : ℕ) (sq : Bool) :
    (weaveVar sqrtFn gi l n fill ddof sq).length = n := by
  simp [weaveVar]

/-- Per-slot characterization of numpy's `_var`/`_std` with `fill_value = 0`. -/
theorem varImpl_get (sqrtFn : Val → Val) (sq : Bool) (gi : List ℕ) (l : List Val) (n : ℕ)
    (hlen : gi.length = l.length) (g : ℕ) (hg : g < n) (ret : List Val)
    (hok : varImpl sqrtFn gi (.arr l) n (.num 0) sq = .ok ret) :
    ret[g]? = some (varSlot sqrtFn sq (groupVals gi l g) (gi.count g)) := by
  unfold varImpl at hok
  simp only [Except.ok.injEq] at hok
  subst hok
  have hc := bincount_get gi n g hg
  have hS := bincountW_get gi l n g hg
  have hmzip : ((bincountW gi l n).zip (bincount gi n))[g]?
      = some (addList (.num 0) (groupVals gi l g), gi.count g) :=
    zip_getElem?_of _ _ _ _ _ hS hc
  have hmean : (((bincountW gi l n).zip (bincount gi n)).map (fun p => p.1.divNat p.2))[g]?
      = some ((addList (.num 0) (groupVals gi l g)).divNat (gi.count g)) := by
    rw [List.getElem?_map, hmzip]
    rfl
  set means := ((bincountW gi l n).zip (bincount gi n)).map (fun p => p.1.divNat p.2)
    with hmeans
  have hmg : means.getD g .nan
      = (addList (.num 0) (groupVals gi l g)).divNat (gi.count g) := by
    rw [getD_eq_getElem?, hmean]
    rfl
  have hdev := bincountW_get gi ((l.zip (gi.map (fun j => means.getD j .nan))).map
      (fun p => (p.1.sub p.2).mul (p.1.sub p.2))) n g hg
  rw [groupVals_dev gi l (fun j => means.getD j .nan) g hlen, hmg] at hdev
  have hr0zip := zip_getElem?_of _ _ _ _ _ hdev hc
  set R0 := ((bincountW gi ((l.zip (gi.map (fun j => means.getD j .nan))).map
      (fun p => (p.1.sub p.2).mul (p.1.sub p.2))) n).zip (bincount gi n)).map
      (fun p => p.1.divNat p.2) with hR0def
  have hret0 : R0[g]? = some ((addList (.num 0) ((groupVals gi l g).map (fun v =>
        (v.sub ((addList (.num 0) (groupVals gi l g)).divNat (gi.count g))).mul
          (v.sub ((addList (.num 0) (groupVals gi l g)).divNat (gi.count g)))))).divNat
        (gi.count g)) := by
    rw [hR0def, List.getElem?_map, hr0zip]
    rfl
  rw [if_pos (by simp [Val.isNan])]
  have hsq : (if sq = true then R0.map sqrtFn else R0)[g]?
      = some (if sq = true
          then sqrtFn ((addList (.num 0) ((groupVals gi l g).map (fun v =>
            (v.sub ((addList (.num 0) (groupVals gi l g)).divNat (gi.count g))).mul
              (v.sub ((addList (.num 0) (groupVals gi l g)).divNat (gi.count g)))))).divNat
            (gi.count g))
          else (addList (.num 0) ((groupVals gi l g).map (fun v =>
            (v.sub ((addList (.num 0) (groupVals gi l g)).divNat (gi.count g))).mul
              (v.sub ((addList (.num 0) (groupVals gi l g)).divNat (gi.count g)))))).divNat
            (gi.count g)) := by
    cases sq with
    | false => exact hret0
    | true =>
      show (R0.map sqrtFn)[g]? = _
      rw [List.getElem?_map, hret0]
      rfl
  have hozip := zip_getElem?_of _ _ _ _ _ hsq hc
  rw [List.getElem?_map, hozip]
  show some _ = some _
  by_cases hc0 : gi.count g = 0
  · simp only [hc0, varSlot, if_pos rfl]
  · simp only [varSlot, if_neg hc0]

/-- Per-slot characterization of the weave var/std kernel with `fill_value = 0`
and `ddof = 0`. -/
theorem weaveVar_get (sqrtFn : Val → Val) (sq : Bool) (gi : List ℕ) (l : List Val) (n : ℕ)
    (hlen : gi.length = l.length) (g : ℕ) (hg : g < n) :
    (weaveVar sqrtFn gi l n (.num 0) 0 sq)[g]?
      = some (weaveSlot sqrtFn sq (groupVals gi l g) (gi.count g)) := by
  unfold weaveVar
  rw [weave_fold_split]
  rw [List.getElem?_map]
  have hrange : (List.range n)[g]? = some g := by
    simp [hg]
  rw [hrange]
  have hcnt : ((gi.zip l).foldl (fun c p => c.set p.1 (c.getD p.1 0 + 1))
      (List.replicate n 0)).getD g 0 = gi.count g := by
    rw [getD_eq_getElem?, accumC_pairs_get _ _ _ (by simpa using hg),
      List.map_fst_zip gi l (le_of_eq hlen)]
    simp [getD_eq_getElem?, List.getElem?_replicate, hg]
  have hmw : ((gi.zip l).foldl (fun m p => m.set p.1 ((m.getD p.1 .nan).add p.2))
      (List.replicate n (.num 0))).getD g .nan = addList (.num 0) (groupVals gi l g) := by
    show (bincountW gi l n).getD g .nan = _
    rw [getD_eq_getElem?, bincountW_get gi l n g hg]
    rfl
  have hrq : ((gi.zip l).foldl (fun r p => r.set p.1 ((r.getD p.1 .nan).add (p.2.mul p.2)))
      (List.replicate n (.num 0))).getD g .nan
      = addList (.num 0) ((groupVals gi l g).map (fun v => v.mul v)) := by
    have h := accumW_get (fun v => v.mul v) (gi.zip l) g (List.replicate n (.num 0))
      (by simpa using hg)
    rw [getD_eq_getElem?, h]
    have hrep : (List.replicate n (Val.num 0)).getD g .nan = .num 0 := by
      rw [getD_eq_getElem?, List.getElem?_replicate]
      simp [hg]
    rw [hrep]
    rfl
  rw [Option.map_some']
  refine congrArg some ?_
  show (if ((gi.zip l).foldl (fun c p => c.set p.1 (c.getD p.1 0 + 1))
        (List.replicate n 0)).getD g 0 ≠ 0 then _ else Val.num 0) = _
  rw [hcnt, hmw, hrq, Nat.sub_zero]
  unfold weaveSlot
  by_cases hc0 : gi.count g = 0
  · rw [if_neg (not_not_intro hc0), if_pos hc0]
  · rw [if_pos hc0, if_neg hc0]

/-- C8, amended: for `func="var"` and `func="std"` with `fill_value = 0` (the
only fill the weave accumulator initialization is correct for) and the default
`ddof = 0`, the weave backend kernel returns exactly the numpy backend's
result on every input, even though weave computes `(sum(x^2) - sum(x)^2/n)/n`
in one pass while numpy computes `sum((x - mean)^2)/n` in two passes: under
exact arithmetic the two formulas agree on every group, and NaN inputs
propagate identically. -/
theorem C8_var_std_backend_agree (sqrtFn : Val → Val) (gi : List ℕ) (l : List Val) (n : ℕ)
    (hlen : gi.length = l.length) :
    applyFunc sqrtFn .var gi (.arr l) n (.num 0)
      = .ok (weaveVar sqrtFn gi l n (.num 0) 0 false)
    ∧ applyFunc sqrtFn .std gi (.arr l) n (.num 0)
      = .ok (weaveVar sqrtFn gi l n (.num 0) 0 true) := by
  have key : ∀ sq : Bool, varImpl sqrtFn gi (.arr l) n (.num 0) sq
      = .ok (weaveVar sqrtFn gi l n (.num 0) 0 sq) := by
    intro sq
    cases hv : varImpl sqrtFn gi (.arr l) n (.num 0) sq with
    | error e =>
      unfold varImpl at hv
      cases hv
    | ok ret =>
      congr 1
      apply List.ext_getElem?
      intro g
      by_cases hg : g < n
      · rw [varImpl_get sqrtFn sq gi l n hlen g hg ret hv, weaveVar_get sqrtFn sq gi l n hlen g hg,
          slot_eq sqrtFn sq (groupVals gi l g) (gi.count g) (groupVals_length gi l g hlen).symm]
      · rw [List.getElem?_eq_none (by
          rw [varImpl_ok_length sqrtFn gi (.arr l) n (.num 0) sq ret hv]
          omega),
          List.getElem?_eq_none (by
          rw [weaveVar_length]
          omega)]
  exact ⟨key false, key true⟩

/-- C8 witness: the amended backend agreement at a concrete input. -/
theorem C8_var_std_backend_agree_witness :
    applyFunc id .var [0, 0] (.arr [.num 1, .num 3]) 1 (.num 0)
      = .ok (weaveVar id [0, 0] [.num 1, .num 3] 1 (.num 0) 0 false) :=
  (C8_var_std_backend_agree id [0, 0] [.num 1, .num 3] 1 rfl).1

end NPG
